import Mathlib

/-!
Verification development for the layered label propagation (LLP) core of
`webgraph-rs` (`src/algo/llp/mod.rs`).

The Rust code is shallowly embedded: slices become `List Nat`, `usize`
arithmetic that may wrap is made explicit, fallible operations (out-of-bounds
panics, `unwrap` on `None`) return `Option`, and `f64` quantities that the
claims treat exactly (scores, γ) are modelled over `ℚ`.

The submodule `label_store.rs` is not part of the sources; the `LabelStore`
is therefore modelled from the specification (§4.1), as marked on each of its
operations.
-/

namespace Llp

/-! ## The label store (modelled from the spec, §4.1)

State: two parallel arrays of length n, `label[v]` and `volume[ℓ]`,
initialised so that `label[v] = v` and `volume[v] = 1`.  Volumes are modelled
over `ℤ` because the specification says the store "tolerates transient
negative readings". -/

/-- Modelled from the spec: the `LabelStore` of `label_store.rs` (missing from
the sources): parallel arrays `label[v]` and `volume[ℓ]`. -/
structure LabelStore where
  labels : List Nat
  volumes : List Int
deriving Repr, DecidableEq

/-- Modelled from the spec: initialisation `label[v] = v`, `volume[v] = 1`. -/
def LabelStore.init (n : Nat) : LabelStore :=
  ⟨List.range n, List.replicate n 1⟩

/-- Modelled from the spec: `label(v)` reads the current label. -/
def LabelStore.label (s : LabelStore) (v : Nat) : Nat :=
  s.labels.getD v 0

/-- Modelled from the spec: `volume_fetch_sub(ℓ)` returns the current volume
and decrements it by one in a single indivisible step. -/
def LabelStore.volume_fetch_sub (s : LabelStore) (l : Nat) : Int × LabelStore :=
  (s.volumes.getD l 0,
   { s with volumes := s.volumes.set l (s.volumes.getD l 0 - 1) })

/-- Modelled from the spec: `volume_set(v, ℓ_new)` decrements
`volume[label[v]]`, stores `label[v] = ℓ_new`, and increments
`volume[ℓ_new]`. -/
def LabelStore.volume_set (s : LabelStore) (v lnew : Nat) : LabelStore :=
  let old := s.label v
  let vols1 := s.volumes.set old (s.volumes.getD old 0 - 1)
  { labels := s.labels.set v lnew,
    volumes := vols1.set lnew (vols1.getD lnew 0 + 1) }

/-- A mutating operation on the label store, as issued by the scoring loop of
`layered_label_propagation` (`mod.rs`, lines 203–248): one `volume_fetch_sub`
per histogram label, and `volume_set` on a label change. -/
inductive StoreOp where
  | fetchSub (l : Nat)
  | vset (v : Nat) (lnew : Nat)
deriving Repr, DecidableEq

def applyOp (s : LabelStore) : StoreOp → LabelStore
  | .fetchSub l => (s.volume_fetch_sub l).2
  | .vset v lnew => s.volume_set v lnew

def applyOps (s : LabelStore) (ops : List StoreOp) : LabelStore :=
  ops.foldl applyOp s

/-- The number of `volume_fetch_sub` operations in a trace. -/
def countFetchSub (ops : List StoreOp) : Nat :=
  (ops.filter fun o => match o with | .fetchSub _ => true | _ => false).length

/-- An operation whose indices are within `[0, n)`. -/
def opInBounds (n : Nat) : StoreOp → Prop
  | .fetchSub l => l < n
  | .vset v lnew => v < n ∧ lnew < n

/-- Well-formedness of a store over `n` nodes: both arrays have length `n`
and every label is in `[0, n)`. -/
def StoreWF (n : Nat) (s : LabelStore) : Prop :=
  s.labels.length = n ∧ s.volumes.length = n ∧ ∀ x ∈ s.labels, x < n

theorem storeWF_init (n : Nat) : StoreWF n (LabelStore.init n) := by
  refine ⟨List.length_range n, List.length_replicate n 1, ?_⟩
  intro x hx
  exact (List.mem_range).1 hx

/-- Sum of a list of integers after a `set` at an in-bounds index. -/
theorem sum_set_int (l : List Int) (i : Nat) (x : Int) (hi : i < l.length) :
    (l.set i x).sum = l.sum + x - l.getD i 0 := by
  induction l generalizing i with
  | nil => simp at hi
  | cons a t ih =>
    cases i with
    | zero => simp [List.set, List.getD]; ring
    | succ j =>
      simp only [List.set, List.sum_cons]
      have hj : j < t.length := by simpa using hi
      rw [ih j hj]
      simp [List.getD]
      ring

theorem getD_eq_zero_of_le (l : List Int) (i : Nat) (hi : l.length ≤ i) :
    l.getD i 0 = 0 := by
  simp [List.getD, List.getElem?_eq_none hi]

theorem applyOp_wf {n : Nat} {s : LabelStore} (hs : StoreWF n s) (op : StoreOp)
    (hop : opInBounds n op) : StoreWF n (applyOp s op) := by
  obtain ⟨hl, hv, hlab⟩ := hs
  cases op with
  | fetchSub l =>
    exact ⟨hl, by simp [applyOp, LabelStore.volume_fetch_sub, hv], hlab⟩
  | vset v lnew =>
    obtain ⟨hvn, hln⟩ := hop
    refine ⟨by simp [applyOp, LabelStore.volume_set, hl],
            by simp [applyOp, LabelStore.volume_set, hv], ?_⟩
    intro x hx
    simp only [applyOp, LabelStore.volume_set] at hx
    rcases List.mem_or_eq_of_mem_set hx with h | h
    · exact hlab x h
    · omega

theorem applyOp_volumes_sum {n : Nat} {s : LabelStore} (hs : StoreWF n s)
    (op : StoreOp) (hop : opInBounds n op) :
    (applyOp s op).volumes.sum =
      s.volumes.sum - (match op with | .fetchSub _ => 1 | .vset _ _ => 0) := by
  obtain ⟨hl, hv, hlab⟩ := hs
  cases op with
  | fetchSub l =>
    show ((s.volume_fetch_sub l).2).volumes.sum = s.volumes.sum - 1
    simp only [LabelStore.volume_fetch_sub]
    have h : l < s.volumes.length := by
      simp only [opInBounds] at hop; omega
    rw [sum_set_int _ _ _ h]; ring
  | vset v lnew =>
    obtain ⟨hvn, hln⟩ := hop
    show (s.volume_set v lnew).volumes.sum = s.volumes.sum - 0
    simp only [LabelStore.volume_set]
    have hvl : v < s.labels.length := by omega
    have hold : s.label v < n := by
      have hmem : s.label v ∈ s.labels := by
        unfold LabelStore.label
        rw [List.getD_eq_getElem _ _ hvl]
        exact List.getElem_mem hvl
      exact hlab _ hmem
    have h1 : s.label v < s.volumes.length := by omega
    have h2 : lnew < (s.volumes.set (s.label v) (s.volumes.getD (s.label v) 0 - 1)).length := by
      simp; omega
    rw [sum_set_int _ _ _ h2, sum_set_int _ _ _ h1]
    ring

/-- After a trace of in-bounds operations, the volume sum equals the starting
sum minus the number of `volume_fetch_sub` operations. -/
theorem applyOps_volumes_sum {n : Nat} {s : LabelStore} (hs : StoreWF n s)
    (ops : List StoreOp) (hops : ∀ op ∈ ops, opInBounds n op) :
    (applyOps s ops).volumes.sum = s.volumes.sum - countFetchSub ops := by
  induction ops generalizing s with
  | nil => simp [applyOps, countFetchSub]
  | cons op rest ih =>
    have hop : opInBounds n op := hops op (List.mem_cons_self _ _)
    have hrest : ∀ o ∈ rest, opInBounds n o := fun o ho => hops o (List.mem_cons_of_mem _ ho)
    have hwf := applyOp_wf hs op hop
    have hsum := applyOp_volumes_sum hs op hop
    show (applyOps (applyOp s op) rest).volumes.sum = _
    rw [ih hwf hrest, hsum]
    cases op with
    | fetchSub l => simp only [countFetchSub, List.filter, List.length_cons]; push_cast; ring
    | vset v lnew => simp only [countFetchSub, List.filter]; ring

theorem init_volumes_sum (n : Nat) : (LabelStore.init n).volumes.sum = (n : Int) := by
  simp [LabelStore.init]

/-! ## The scoring loop (`mod.rs`, lines 203–237)

For each `(label, count)` in the vertex's local histogram the loop performs
`volume = volume_fetch_sub(label)` and computes
`val = (1.0 + gamma) * count - gamma * (volume + 1)`, tracking the running
maximum `max` (initially `f64::NEG_INFINITY`, modelled as `none`), the score
`old` of the current label, and the list `majorities` of argmax labels.
Scores and γ are modelled over `ℚ` (the claims treat the formula exactly). -/

/-- `(1.0 + gamma) * count as f64 - gamma * (volume + 1) as f64`
(`mod.rs`, line 222). -/
def scoreVal (γ : ℚ) (count : Nat) (volume : Int) : ℚ :=
  (1 + γ) * (count : ℚ) - γ * ((volume : ℚ) + 1)

/-- State threaded through the scoring loop. -/
structure ScoreState where
  store : LabelStore
  max : Option ℚ
  old : ℚ
  majorities : List Nat
deriving Repr, DecidableEq

/-- Initial scoring state: `max = f64::NEG_INFINITY`, `old = 0.0`,
`majorities = vec![]` (`mod.rs`, lines 203–205). -/
def ScoreState.start (store : LabelStore) : ScoreState :=
  ⟨store, none, 0, []⟩

/-- Observed events of one histogram entry: the label, its count, the value
returned by `volume_fetch_sub`, and the computed score. -/
structure ScoreTraceEntry where
  lab : Nat
  count : Nat
  volRead : Int
  val : ℚ
deriving Repr, DecidableEq

/-- `max == val` with `max : Option ℚ` (`none` is `NEG_INFINITY`, which is
equal to no finite score). -/
def optEqQ (m : Option ℚ) (v : ℚ) : Bool :=
  match m with
  | none => false
  | some m => decide (m = v)

/-- `val > max` with `max : Option ℚ` (`none` is `NEG_INFINITY`). -/
def optLtQ (m : Option ℚ) (v : ℚ) : Bool :=
  match m with
  | none => true
  | some m => decide (m < v)

/-- One iteration of the scoring loop body (`mod.rs`, lines 207–237). -/
def scoreEntry (γ : ℚ) (curr : Nat) (st : ScoreState) (e : Nat × Nat) :
    ScoreState × ScoreTraceEntry :=
  let p := st.store.volume_fetch_sub e.1
  let val := scoreVal γ e.2 p.1
  let maj1 := if optEqQ st.max val then st.majorities ++ [e.1] else st.majorities
  let max2 := if optLtQ st.max val then some val else st.max
  let maj2 := if optLtQ st.max val then [e.1] else maj1
  let old2 := if e.1 = curr then val else st.old
  (⟨p.2, max2, old2, maj2⟩, ⟨e.1, e.2, p.1, val⟩)

/-- The scoring loop over the histogram entries, also returning the trace of
observed `(label, count, volume, val)` events. -/
def scoreLoop (γ : ℚ) (curr : Nat) (st : ScoreState) :
    List (Nat × Nat) → ScoreState × List ScoreTraceEntry
  | [] => (st, [])
  | e :: rest =>
    let p := scoreEntry γ curr st e
    let q := scoreLoop γ curr p.1 rest
    (q.1, p.2 :: q.2)

theorem scoreLoop_append (γ : ℚ) (curr : Nat) (st : ScoreState)
    (l1 l2 : List (Nat × Nat)) :
    scoreLoop γ curr st (l1 ++ l2) =
      ((scoreLoop γ curr (scoreLoop γ curr st l1).1 l2).1,
       (scoreLoop γ curr st l1).2 ++ (scoreLoop γ curr (scoreLoop γ curr st l1).1 l2).2) := by
  induction l1 generalizing st with
  | nil => simp [scoreLoop]
  | cons e rest ih => simp [scoreLoop, ih]

theorem scoreEntry_store (γ : ℚ) (curr : Nat) (st : ScoreState) (e : Nat × Nat) :
    (scoreEntry γ curr st e).1.store = (st.store.volume_fetch_sub e.1).2 := rfl

theorem volume_fetch_sub_length (s : LabelStore) (l : Nat) :
    ((s.volume_fetch_sub l).2).volumes.length = s.volumes.length := by
  simp [LabelStore.volume_fetch_sub]

theorem scoreLoop_volumes_length (γ : ℚ) (curr : Nat) (st : ScoreState)
    (hist : List (Nat × Nat)) :
    (scoreLoop γ curr st hist).1.store.volumes.length = st.store.volumes.length := by
  induction hist generalizing st with
  | nil => rfl
  | cons e rest ih =>
    simp only [scoreLoop]
    rw [ih]
    simp [scoreEntry, volume_fetch_sub_length]

theorem scoreLoop_trace_length (γ : ℚ) (curr : Nat) (st : ScoreState)
    (hist : List (Nat × Nat)) :
    (scoreLoop γ curr st hist).2.length = hist.length := by
  induction hist generalizing st with
  | nil => rfl
  | cons e rest ih => simp only [scoreLoop, List.length_cons, ih]

/-- The scoring loop only decrements volumes (one `volume_fetch_sub` per
histogram entry, no matching increment): the volume sum drops by exactly the
number of entries. -/
theorem scoreLoop_volumes_sum (γ : ℚ) (curr : Nat) (st : ScoreState)
    (hist : List (Nat × Nat))
    (hb : ∀ e ∈ hist, e.1 < st.store.volumes.length) :
    (scoreLoop γ curr st hist).1.store.volumes.sum =
      st.store.volumes.sum - hist.length := by
  induction hist generalizing st with
  | nil => simp [scoreLoop]
  | cons e rest ih =>
    simp only [scoreLoop]
    rw [ih]
    · have he : e.1 < st.store.volumes.length := hb e (List.mem_cons_self _ _)
      have : (scoreEntry γ curr st e).1.store.volumes.sum =
          st.store.volumes.sum - 1 := by
        simp only [scoreEntry, LabelStore.volume_fetch_sub]
        rw [sum_set_int _ _ _ he]
        ring
      rw [this]
      simp only [List.length_cons]
      push_cast
      ring
    · intro f hf
      have := hb f (List.mem_cons_of_mem _ hf)
      simpa [scoreEntry, volume_fetch_sub_length] using this

/-- The `j`-th trace entry of the scoring loop is the one produced by
processing entry `j` in the state reached after the first `j` entries. -/
theorem scoreLoop_trace_get (γ : ℚ) (curr : Nat) (st : ScoreState)
    (l : List (Nat × Nat)) (j : Nat) (hj : j < l.length) :
    (scoreLoop γ curr st l).2[j]? =
      some (scoreEntry γ curr (scoreLoop γ curr st (l.take j)).1 l[j]).2 := by
  induction l generalizing st j with
  | nil => simp at hj
  | cons e rest ih =>
    cases j with
    | zero => simp [scoreLoop]
    | succ k =>
      have hk : k < rest.length := by simpa using hj
      simp only [scoreLoop, List.getElem?_cons_succ]
      rw [ih _ k hk]
      rfl

instance (n : Nat) (op : StoreOp) : Decidable (opInBounds n op) := by
  cases op with
  | fetchSub l => exact inferInstanceAs (Decidable (l < n))
  | vset v lnew => exact inferInstanceAs (Decidable (v < n ∧ lnew < n))

/-- C1 (counterexample): the trace issued when the scoring loop examines a
vertex of the two-vertex path graph (histogram `{1 ↦ 1, 0 ↦ 0}`, then commit
of the new label `1`) ends in a `volume_set` after which the volume sum
is `0`, not `n = 2`, and no scoring operation is in flight. -/
theorem C1_volume_conservation_counterexample :
    (applyOps (LabelStore.init 2)
        [StoreOp.fetchSub 1, StoreOp.fetchSub 0, StoreOp.vset 0 1]).volumes.sum = 0 ∧
    ¬ (applyOps (LabelStore.init 2)
        [StoreOp.fetchSub 1, StoreOp.fetchSub 0, StoreOp.vset 0 1]).volumes.sum = 2 := by
  constructor <;> decide

/-- C1 (amended): starting from `init n`, after any in-bounds trace of store
operations the volume sum equals `n` minus the number of `volume_fetch_sub`
operations performed; `volume_set` preserves the sum, so the imbalance equals
the cumulative count of scoring decrements and is not restored to `n` at
commit. -/
theorem C1_volume_sum_after_trace (n : Nat) (ops : List StoreOp)
    (hops : ∀ op ∈ ops, opInBounds n op) :
    (applyOps (LabelStore.init n) ops).volumes.sum =
      (n : Int) - countFetchSub ops := by
  rw [applyOps_volumes_sum (storeWF_init n) ops hops, init_volumes_sum]

theorem C1_volume_sum_after_trace_witness :
    (∀ op ∈ [StoreOp.fetchSub 1, StoreOp.fetchSub 0, StoreOp.vset 0 1],
        opInBounds 2 op) ∧
    (applyOps (LabelStore.init 2)
        [StoreOp.fetchSub 1, StoreOp.fetchSub 0, StoreOp.vset 0 1]).volumes.sum =
      (2 : Int) - countFetchSub [StoreOp.fetchSub 1, StoreOp.fetchSub 0, StoreOp.vset 0 1] :=
  ⟨by decide, C1_volume_sum_after_trace 2 _ (by decide)⟩

/-- C2: in the scoring loop, for every histogram entry `(ℓ, k)` (at position
`j`), the computed score is exactly `(1+γ)·k − γ·(volume_fetch_sub(ℓ) + 1)`,
where the `volume_fetch_sub` result is the volume of `ℓ` in the store state
reached after the previous entries and the store is left decremented by one
at `ℓ`; moreover the whole loop issues no matching increment (the volume sum
drops by one per entry). -/
theorem C2_scoring_formula (γ : ℚ) (curr : Nat) (s0 : LabelStore)
    (hist : List (Nat × Nat)) (j : Nat) (hj : j < hist.length)
    (hb : ∀ e ∈ hist, e.1 < s0.volumes.length) :
    ∃ e t,
      hist[j]? = some e ∧
      (scoreLoop γ curr (ScoreState.start s0) hist).2[j]? = some t ∧
      t.volRead =
        (scoreLoop γ curr (ScoreState.start s0) (hist.take j)).1.store.volumes.getD e.1 0 ∧
      (scoreLoop γ curr (ScoreState.start s0) (hist.take (j+1))).1.store.volumes.getD e.1 0 =
        t.volRead - 1 ∧
      t.val = (1 + γ) * (e.2 : ℚ) - γ * ((t.volRead : ℚ) + 1) ∧
      (scoreLoop γ curr (ScoreState.start s0) hist).1.store.volumes.sum =
        s0.volumes.sum - hist.length := by
  set st0 := ScoreState.start s0 with hst0
  set pre := scoreLoop γ curr st0 (hist.take j) with hpre
  have he : hist[j]? = some hist[j] := List.getElem?_eq_getElem hj
  refine ⟨hist[j], (scoreEntry γ curr pre.1 hist[j]).2, he, ?_, rfl, ?_, ?_, ?_⟩
  · -- trace entry at position j
    exact scoreLoop_trace_get γ curr st0 hist j hj
  · -- fetch_sub decrements the volume of e.1
    have htake : hist.take (j+1) = hist.take j ++ [hist[j]] := by
      rw [List.take_succ, he]
      rfl
    rw [htake, scoreLoop_append]
    have hlen : hist[j].1 < pre.1.store.volumes.length := by
      rw [hpre, scoreLoop_volumes_length]
      exact hb hist[j] (List.getElem_mem hj)
    show ((pre.1.store.volume_fetch_sub hist[j].1).2).volumes.getD hist[j].1 0 = _
    simp only [LabelStore.volume_fetch_sub, scoreEntry]
    rw [List.getD_eq_getElem _ _ (by simpa using hlen), List.getElem_set_self]
  · simp [scoreEntry, scoreVal]
  · exact scoreLoop_volumes_sum γ curr st0 hist hb

theorem C2_scoring_formula_witness :
    ((0 : Nat) < ([((1 : Nat), (1 : Nat)), (0, 0)] : List (Nat × Nat)).length ∧
      ∀ e ∈ ([((1 : Nat), (1 : Nat)), (0, 0)] : List (Nat × Nat)),
        e.1 < (LabelStore.init 2).volumes.length) ∧
    ∃ e t,
      ([((1 : Nat), (1 : Nat)), (0, 0)] : List (Nat × Nat))[0]? = some e ∧
      (scoreLoop (1/2) 0 (ScoreState.start (LabelStore.init 2))
          [(1, 1), (0, 0)]).2[0]? = some t ∧
      t.volRead =
        (scoreLoop (1/2) 0 (ScoreState.start (LabelStore.init 2))
          (([((1 : Nat), (1 : Nat)), (0, 0)] : List (Nat × Nat)).take 0)).1.store.volumes.getD e.1 0 ∧
      (scoreLoop (1/2) 0 (ScoreState.start (LabelStore.init 2))
          (([((1 : Nat), (1 : Nat)), (0, 0)] : List (Nat × Nat)).take 1)).1.store.volumes.getD e.1 0 =
        t.volRead - 1 ∧
      t.val = (1 + (1/2)) * (e.2 : ℚ) - (1/2) * ((t.volRead : ℚ) + 1) ∧
      (scoreLoop (1/2) 0 (ScoreState.start (LabelStore.init 2))
          [(1, 1), (0, 0)]).1.store.volumes.sum =
        (LabelStore.init 2).volumes.sum - ([((1 : Nat), (1 : Nat)), (0, 0)] : List (Nat × Nat)).length :=
  ⟨⟨by decide, by decide⟩,
   C2_scoring_formula (1/2) 0 (LabelStore.init 2) [(1, 1), (0, 0)] 0 (by decide) (by decide)⟩

/-! ## `combine` (`mod.rs`, lines 365–389)

`combine(result, labels, temp_perm)` resets `temp_perm` to the identity,
stably sorts it by the key `(result[labels[a]], labels[a], result[a])`
(rayon's `par_sort_by` is a stable sort), then walks `temp_perm` in sorted
order assigning a dense id to `result[temp_perm[i]]`, incrementing the id
whenever `(result[temp_perm[i]], labels[temp_perm[i]])` changes; it returns
`curr_label + 1`.

Out-of-bounds slice accesses panic in Rust; the embedding returns `none`.
The sort key is computed eagerly here; `Ordering::then_with` laziness never
changes the comparison value, and the claims about `combine` all assume the
bounds under which every component is readable.  Only the length of
`temp_perm` matters (its content is overwritten), so it is passed as
`tempLen`. -/

/-- The comparator `(result[labels[a]].cmp(&result[labels[b]]))
.then_with(|| labels[a].cmp(&labels[b])).then_with(|| result[a].cmp(&result[b]))`
applied to the two eagerly-computed key triples. -/
def combineCmp (ka kb : Nat × Nat × Nat) : Ordering :=
  (compare ka.1 kb.1).then ((compare ka.2.1 kb.2.1).then (compare ka.2.2 kb.2.2))

/-- The key triple `(result[labels[a]], labels[a], result[a])` of index `a`;
`none` when an access is out of bounds. -/
def combineKey (result labels : List Nat) (a : Nat) : Option (Nat × Nat × Nat) := do
  let la ← labels[a]?
  let rla ← result[la]?
  let ra ← result[a]?
  pure (rla, la, ra)

/-- The sorted `temp_perm`: the identity permutation of `[0, tempLen)` stably
sorted by the comparator. -/
def combineSort (result labels : List Nat) (tempLen : Nat) : Option (List Nat) := do
  let keys ← (List.range tempLen).mapM (combineKey result labels)
  let pairs := (List.range tempLen).zip keys
  pure ((pairs.mergeSort fun p q => !decide (combineCmp p.2 q.2 = Ordering.gt)).map (·.1))

/-- The renumbering walk (`mod.rs`, lines 379–386): state `(prev_labels,
curr_label)`, writing `result[temp_perm[i]] = curr_label`. -/
def combineWalk (labels : List Nat) :
    List Nat → Nat × Nat → Nat → List Nat → Option (Nat × List Nat)
  | [], _, curr, result => some (curr, result)
  | t :: ts, prev, curr, result => do
    let r ← result[t]?
    let l ← labels[t]?
    if (r, l) ≠ prev then
      combineWalk labels ts (r, l) (curr + 1) (result.set t (curr + 1))
    else
      combineWalk labels ts prev curr (result.set t curr)

/-- `combine` (`mod.rs`, lines 366–389): returns the number of dense labels
and the rewritten `result`; `none` models a panic (the unconditional
`temp_perm[0]` read makes `tempLen = 0` panic). -/
def combine (result labels : List Nat) (tempLen : Nat) : Option (Nat × List Nat) := do
  let temp ← combineSort result labels tempLen
  let t0 ← temp[0]?
  let r0 ← result[t0]?
  let l0 ← labels[t0]?
  let p ← combineWalk labels (temp.drop 1) (r0, l0) 0 (result.set t0 0)
  pure (p.1 + 1, p.2)

/-- The sequence of dense ids assigned by the walk: each step writes
`curr + 1` when the key changes and `curr` otherwise. -/
def walkVals (key : Nat → Nat × Nat) (prev : Nat × Nat) (curr : Nat) :
    List Nat → List Nat
  | [] => []
  | t :: ts =>
    let c := if key t ≠ prev then curr + 1 else curr
    c :: walkVals key (key t) c ts

theorem walkVals_length (key : Nat → Nat × Nat) (prev : Nat × Nat) (curr : Nat)
    (ts : List Nat) : (walkVals key prev curr ts).length = ts.length := by
  induction ts generalizing prev curr with
  | nil => rfl
  | cons t ts ih => simp [walkVals, ih]

/-- Every value assigned by the walk lies between `curr` and the last
assigned value. -/
theorem walkVals_bounds (key : Nat → Nat × Nat) (prev : Nat × Nat) (curr : Nat)
    (ts : List Nat) :
    ∀ v ∈ walkVals key prev curr ts,
      curr ≤ v ∧ v ≤ (walkVals key prev curr ts).getLastD curr := by
  induction ts generalizing prev curr with
  | nil => intro v hv; simp [walkVals] at hv
  | cons t ts ih =>
    intro v hv
    simp only [walkVals, List.mem_cons] at hv
    set c := if key t ≠ prev then curr + 1 else curr with hc
    have hcc : curr ≤ c := by rw [hc]; split <;> omega
    rw [show walkVals key prev curr (t :: ts) =
          c :: walkVals key (key t) c ts from rfl, List.getLastD_cons]
    rcases hv with rfl | hv
    · refine ⟨hcc, ?_⟩
      cases hts : walkVals key (key t) c ts with
      | nil => simp [hts]
      | cons w ws =>
        have hw : w ∈ walkVals key (key t) c ts := by rw [hts]; exact List.mem_cons_self _ _
        have h2 := ih (key t) c w hw
        rw [hts] at h2
        exact le_trans h2.1 h2.2
    · have := ih (key t) c v hv
      exact ⟨le_trans hcc this.1, this.2⟩

/-- Every id strictly between `curr` and the last assigned value is assigned
at some step. -/
theorem walkVals_surj (key : Nat → Nat × Nat) (prev : Nat × Nat) (curr : Nat)
    (ts : List Nat) :
    ∀ j, curr < j → j ≤ (walkVals key prev curr ts).getLastD curr →
      j ∈ walkVals key prev curr ts := by
  induction ts generalizing prev curr with
  | nil => intro j h1 h2; simp [walkVals] at h1 h2; omega
  | cons t ts ih =>
    intro j h1 h2
    simp only [walkVals]
    set c := if key t ≠ prev then curr + 1 else curr with hc
    have hcc : c = curr ∨ c = curr + 1 := by rw [hc]; split <;> omega
    rw [show walkVals key prev curr (t :: ts) =
          c :: walkVals key (key t) c ts from rfl, List.getLastD_cons] at h2
    by_cases hj : j = c
    · exact hj ▸ List.mem_cons_self _ _
    · refine List.mem_cons_of_mem _ (ih (key t) c j ?_ h2)
      omega

/-- The assigned ids are nondecreasing along the walk. -/
theorem walkVals_mono (key : Nat → Nat × Nat) (prev : Nat × Nat) (curr : Nat)
    (ts : List Nat) :
    ∀ i j, i ≤ j → j < (walkVals key prev curr ts).length →
      (walkVals key prev curr ts).getD i 0 ≤ (walkVals key prev curr ts).getD j 0 := by
  induction ts generalizing prev curr with
  | nil => intro i j hij hj; simp [walkVals] at hj
  | cons t ts ih =>
    intro i j hij hj
    set c := if key t ≠ prev then curr + 1 else curr with hc
    rw [show walkVals key prev curr (t :: ts) =
          c :: walkVals key (key t) c ts from rfl] at hj ⊢
    cases i with
    | zero =>
      cases j with
      | zero => exact le_refl _
      | succ m =>
        simp only [List.getD_cons_zero, List.getD_cons_succ]
        have hm : m < (walkVals key (key t) c ts).length := by
          simpa using hj
        have hmem : (walkVals key (key t) c ts).getD m 0 ∈ walkVals key (key t) c ts := by
          rw [List.getD_eq_getElem _ _ hm]
          exact List.getElem_mem hm
        exact (walkVals_bounds key (key t) c ts _ hmem).1
    | succ k =>
      cases j with
      | zero => omega
      | succ m =>
        simp only [List.getD_cons_succ]
        exact ih (key t) c k m (by omega) (by simpa using hj)

/-- If two steps of the walk assign the same id, the two keys agree. -/
theorem walkVals_eq_key (key : Nat → Nat × Nat) (prev : Nat × Nat) (curr : Nat)
    (ts : List Nat) :
    ∀ i j, i ≤ j → j < ts.length →
      (walkVals key prev curr ts).getD i 0 = (walkVals key prev curr ts).getD j 0 →
      key (ts.getD i 0) = key (ts.getD j 0) := by
  induction ts generalizing prev curr with
  | nil => intro i j hij hj; simp at hj
  | cons t ts ih =>
    intro i j hij hj hval
    set c := if key t ≠ prev then curr + 1 else curr with hc
    rw [show walkVals key prev curr (t :: ts) =
          c :: walkVals key (key t) c ts from rfl] at hval
    cases i with
    | zero =>
      cases j with
      | zero => rfl
      | succ m =>
        simp only [List.getD_cons_zero, List.getD_cons_succ] at hval ⊢
        have hm : m < ts.length := by simpa using hj
        cases ts with
        | nil => simp at hm
        | cons t' ts2 =>
          have hval0 : (walkVals key (key t) c (t' :: ts2)).getD 0 0 = c := by
            have hle1 : c ≤ (walkVals key (key t) c (t' :: ts2)).getD 0 0 := by
              have h0 : 0 < (walkVals key (key t) c (t' :: ts2)).length := by
                rw [walkVals_length]; simp
              have hmem : (walkVals key (key t) c (t' :: ts2)).getD 0 0 ∈
                  walkVals key (key t) c (t' :: ts2) := by
                rw [List.getD_eq_getElem _ _ h0]
                exact List.getElem_mem h0
              exact (walkVals_bounds key (key t) c _ _ hmem).1
            have hle2 : (walkVals key (key t) c (t' :: ts2)).getD 0 0 ≤
                (walkVals key (key t) c (t' :: ts2)).getD m 0 := by
              refine walkVals_mono key (key t) c (t' :: ts2) 0 m (Nat.zero_le m) ?_
              rw [walkVals_length]; exact hm
            omega
          have hkey0 : key t' = key t := by
            have : (walkVals key (key t) c (t' :: ts2)).getD 0 0 =
                if key t' ≠ key t then c + 1 else c := rfl
            rw [hval0] at this
            by_contra hne
            simp [hne] at this
          have := ih (key t) c 0 m (Nat.zero_le m) hm (by rw [hval0, ← hval])
          simp only [List.getD_cons_zero] at this
          rw [← this, hkey0]
    | succ k =>
      cases j with
      | zero => omega
      | succ m =>
        simp only [List.getD_cons_succ] at hval ⊢
        exact ih (key t) c k m (by omega) (by simpa using hj) hval

/-- Full characterisation of the renumbering walk: it succeeds, returns the
last assigned id, leaves positions outside `ts` untouched, and writes the
`i`-th assigned id at position `ts[i]`. -/
theorem combineWalk_spec (labels : List Nat) (key : Nat → Nat × Nat)
    (ts : List Nat) (prev : Nat × Nat) (curr : Nat) (result : List Nat)
    (hnd : ts.Nodup)
    (hk : ∀ t ∈ ts, result[t]? = some (key t).1 ∧ labels[t]? = some (key t).2) :
    ∃ res, combineWalk labels ts prev curr result =
        some ((walkVals key prev curr ts).getLastD curr, res) ∧
      res.length = result.length ∧
      (∀ p, p ∉ ts → res[p]? = result[p]?) ∧
      (∀ i, i < ts.length → res[ts.getD i 0]? = (walkVals key prev curr ts)[i]?) := by
  induction ts generalizing prev curr result with
  | nil =>
    refine ⟨result, rfl, rfl, fun p _ => rfl, fun i hi => by simp at hi⟩
  | cons t ts ih =>
    obtain ⟨hr, hl⟩ := hk t (List.mem_cons_self _ _)
    obtain ⟨htmem, hnd2⟩ := List.nodup_cons.mp hnd
    have htlen : t < result.length := (List.getElem?_eq_some.mp hr).1
    set c := if key t ≠ prev then curr + 1 else curr with hc
    have hk2 : ∀ t' ∈ ts, (result.set t c)[t']? = some (key t').1 ∧
        labels[t']? = some (key t').2 := by
      intro t' ht'
      have hne : t ≠ t' := fun h => htmem (h ▸ ht')
      rw [List.getElem?_set_ne hne]
      exact hk t' (List.mem_cons_of_mem _ ht')
    obtain ⟨res, heq, hlen, hout, hidx⟩ := ih (key t) c (result.set t c) hnd2 hk2
    have hstep : combineWalk labels (t :: ts) prev curr result =
        combineWalk labels ts (key t) c (result.set t c) := by
      show (do
        let r ← result[t]?
        let l ← labels[t]?
        if (r, l) ≠ prev then
          combineWalk labels ts (r, l) (curr + 1) (result.set t (curr + 1))
        else
          combineWalk labels ts prev curr (result.set t curr)) = _
      rw [hr, hl]
      show (if ((key t).1, (key t).2) ≠ prev then
          combineWalk labels ts ((key t).1, (key t).2) (curr + 1) (result.set t (curr + 1))
        else combineWalk labels ts prev curr (result.set t curr)) = _
      by_cases hp : key t = prev
      · have heqp : ((key t).1, (key t).2) = prev := by rw [Prod.mk.eta, hp]
        rw [if_neg (fun hcon => hcon heqp), hc, if_neg (fun hcon => hcon hp), hp]
      · have hnep : ((key t).1, (key t).2) ≠ prev := by rw [Prod.mk.eta]; exact hp
        rw [if_pos hnep, hc, if_pos hp, Prod.mk.eta]
    refine ⟨res, ?_, ?_, ?_, ?_⟩
    · rw [hstep, heq]
      rw [show walkVals key prev curr (t :: ts) =
            c :: walkVals key (key t) c ts from rfl, List.getLastD_cons]
    · rw [hlen, List.length_set]
    · intro p hp
      have hp1 : p ∉ ts := fun h => hp (List.mem_cons_of_mem _ h)
      have hp2 : t ≠ p := fun h => hp (h ▸ List.mem_cons_self _ _)
      rw [hout p hp1, List.getElem?_set_ne hp2]
    · intro i hi
      rw [show walkVals key prev curr (t :: ts) =
            c :: walkVals key (key t) c ts from rfl]
      cases i with
      | zero =>
        show res[t]? = _
        rw [hout t htmem, List.getElem?_set_self htlen, List.getElem?_cons_zero]
      | succ k =>
        show res[ts.getD k 0]? = _
        rw [hidx k (by simpa using hi), List.getElem?_cons_succ]

theorem mapM_eq_some_of_forall {α β : Type} (f : α → Option β) (g : α → β)
    (l : List α) (h : ∀ a ∈ l, f a = some (g a)) :
    l.mapM f = some (l.map g) := by
  induction l with
  | nil => rfl
  | cons a t ih =>
    rw [List.mapM_cons, h a (List.mem_cons_self _ _),
        ih fun b hb => h b (List.mem_cons_of_mem _ hb)]
    rfl

/-- The class key `(result[a], labels[a])` used by the renumbering walk. -/
def ckey (result labels : List Nat) (t : Nat) : Nat × Nat :=
  (result.getD t 0, labels.getD t 0)

/-- Characterisation of a successful `combine` under the in-bounds
precondition: the sorted `temp` is a permutation of `[0, n)`, the returned
count is one more than the last id assigned along `temp`, and the id walk is
described by `walkVals` over the class keys of the original `result`. -/
theorem combine_spec (result labels : List Nat) (n : Nat) (hn : 1 ≤ n)
    (hr : result.length = n) (hl : labels.length = n)
    (hlb : ∀ x ∈ labels, x < n) :
    ∃ temp res,
      temp.Perm (List.range n) ∧
      combine result labels n =
        some (((walkVals (ckey result labels)
            (ckey result labels (temp.getD 0 0)) 0 temp).getLastD 0) + 1, res) ∧
      res.length = n ∧
      (∀ i, i < n → res[temp.getD i 0]? =
        (walkVals (ckey result labels) (ckey result labels (temp.getD 0 0)) 0 temp)[i]?) := by
  -- the key of every index in `[0, n)` is computable
  have hkeys : ∀ a ∈ List.range n, combineKey result labels a =
      some (result.getD (labels.getD a 0) 0, labels.getD a 0, result.getD a 0) := by
    intro a ha
    have han : a < n := List.mem_range.mp ha
    have ha1 : a < labels.length := by omega
    have ha3 : a < result.length := by omega
    have ha2 : labels[a] < result.length := by
      have := hlb _ (List.getElem_mem ha1)
      omega
    have hgd1 : labels.getD a 0 = labels[a] := List.getD_eq_getElem labels 0 ha1
    have hgd2 : result.getD (labels.getD a 0) 0 = result[labels[a]] := by
      rw [hgd1]
      exact List.getD_eq_getElem result 0 ha2
    have hgd3 : result.getD a 0 = result[a] := List.getD_eq_getElem result 0 ha3
    rw [hgd2, hgd1, hgd3]
    unfold combineKey
    rw [List.getElem?_eq_getElem ha1]
    show (do
      let rla ← result[labels[a]]?
      let ra ← result[a]?
      pure ((rla, labels[a], ra) : Nat × Nat × Nat)) =
        some (result[labels[a]], labels[a], result[a])
    rw [List.getElem?_eq_getElem ha2]
    show (do
      let ra ← result[a]?
      pure ((result[labels[a]], labels[a], ra) : Nat × Nat × Nat)) = _
    rw [List.getElem?_eq_getElem ha3]
    rfl
  obtain hmapM := mapM_eq_some_of_forall (combineKey result labels) _ (List.range n) hkeys
  set gkey := fun a => (result.getD (labels.getD a 0) 0, labels.getD a 0, result.getD a 0)
    with hgkey
  set pairs := (List.range n).zip ((List.range n).map gkey) with hpairs
  set temp := (pairs.mergeSort fun p q =>
      !decide (combineCmp p.2 q.2 = Ordering.gt)).map (·.1) with htemp
  have hsort : combineSort result labels n = some temp := by
    unfold combineSort
    rw [hmapM]
    rfl
  have hperm : temp.Perm (List.range n) := by
    have h1 := List.mergeSort_perm pairs fun p q =>
      !decide (combineCmp p.2 q.2 = Ordering.gt)
    have h2 := h1.map (·.1)
    have h3 : pairs.map (·.1) = List.range n := by
      rw [hpairs]
      exact List.map_fst_zip _ _ (by simp)
    rw [h3] at h2
    exact h2
  have htlen : temp.length = n := by
    have := hperm.length_eq
    simpa using this
  have htnd : temp.Nodup := (hperm.symm).nodup (List.nodup_range n)
  have htmem : ∀ t ∈ temp, t < n := fun t ht =>
    List.mem_range.mp (hperm.mem_iff.mp ht)
  obtain ⟨t0, rest, hcons⟩ : ∃ a l, temp = a :: l := by
    cases htt : temp with
    | nil => rw [htt] at htlen; simp at htlen; omega
    | cons a l => exact ⟨a, l, rfl⟩
  have ht0n : t0 < n := htmem t0 (by rw [hcons]; exact List.mem_cons_self _ _)
  have ht0r : t0 < result.length := by omega
  have ht0l : t0 < labels.length := by omega
  have ht0rest : t0 ∉ rest := (List.nodup_cons.mp (hcons ▸ htnd)).1
  have hndrest : rest.Nodup := (List.nodup_cons.mp (hcons ▸ htnd)).2
  -- walk over `rest` starting from the key of `t0`
  have hk2 : ∀ t ∈ rest, (result.set t0 0)[t]? = some (ckey result labels t).1 ∧
      labels[t]? = some (ckey result labels t).2 := by
    intro t ht
    have htn : t < n := htmem t (by rw [hcons]; exact List.mem_cons_of_mem _ ht)
    have hne : t0 ≠ t := fun h => ht0rest (h ▸ ht)
    constructor
    · rw [List.getElem?_set_ne hne, List.getElem?_eq_getElem (show t < result.length by omega)]
      rw [ckey, List.getD_eq_getElem result 0 (show t < result.length by omega)]
    · rw [List.getElem?_eq_getElem (show t < labels.length by omega)]
      rw [ckey, List.getD_eq_getElem labels 0 (show t < labels.length by omega)]
  obtain ⟨res, hweq, hwlen, hwout, hwidx⟩ :=
    combineWalk_spec labels (ckey result labels) rest (ckey result labels t0) 0
      (result.set t0 0) hndrest hk2
  have ht00 : temp.getD 0 0 = t0 := by rw [hcons]; rfl
  have hfull : walkVals (ckey result labels) (ckey result labels t0) 0 temp =
      0 :: walkVals (ckey result labels) (ckey result labels t0) 0 rest := by
    rw [hcons]
    show (if ckey result labels t0 ≠ ckey result labels t0 then 0 + 1 else 0) ::
        walkVals _ _ _ rest = _
    rw [if_neg (fun h => h rfl)]
  have hck : (result[t0], labels[t0]) = ckey result labels t0 := by
    rw [ckey, List.getD_eq_getElem result 0 ht0r, List.getD_eq_getElem labels 0 ht0l]
  have hcombine : combine result labels n =
      some ((walkVals (ckey result labels) (ckey result labels t0) 0 rest).getLastD 0 + 1,
        res) := by
    unfold combine
    rw [hsort, hcons]
    show (do
      let t0q ← (t0 :: rest)[0]?
      let r0 ← result[t0q]?
      let l0 ← labels[t0q]?
      let p ← combineWalk labels ((t0 :: rest).drop 1) (r0, l0) 0 (result.set t0q 0)
      pure (p.1 + 1, p.2)) = _
    rw [List.getElem?_cons_zero]
    show (do
      let r0 ← result[t0]?
      let l0 ← labels[t0]?
      let p ← combineWalk labels ((t0 :: rest).drop 1) (r0, l0) 0 (result.set t0 0)
      pure (p.1 + 1, p.2)) = _
    rw [List.getElem?_eq_getElem ht0r]
    show (do
      let l0 ← labels[t0]?
      let p ← combineWalk labels ((t0 :: rest).drop 1) (result[t0], l0) 0 (result.set t0 0)
      pure (p.1 + 1, p.2)) = _
    rw [List.getElem?_eq_getElem ht0l]
    show (do
      let p ← combineWalk labels rest (result[t0], labels[t0]) 0 (result.set t0 0)
      pure (p.1 + 1, p.2)) = _
    rw [hck, hweq]
    rfl
  refine ⟨temp, res, hperm, ?_, ?_, ?_⟩
  · -- the equation for `combine`
    rw [ht00, hfull, List.getLastD_cons]
    exact hcombine
  · rw [hwlen, List.length_set, hr]
  · intro i hi
    rw [ht00, hfull]
    cases i with
    | zero =>
      rw [ht00]
      show res[t0]? = _
      rw [hwout t0 ht0rest, List.getElem?_set_self ht0r, List.getElem?_cons_zero]
    | succ k =>
      rw [hcons]
      show res[rest.getD k 0]? = _
      have hkr : k < rest.length := by
        have hq := htlen
        rw [hcons] at hq
        simp only [List.length_cons] at hq
        omega
      rw [hwidx k hkr, List.getElem?_cons_succ]

theorem walkVals_self_head (key : Nat → Nat × Nat) (a : Nat) (l : List Nat) :
    (walkVals key (key a) 0 (a :: l))[0]? = some 0 := by
  show ((if key a ≠ key a then 0 + 1 else 0) :: walkVals key (key a) _ l)[0]? = _
  rw [if_neg (fun h => h rfl), List.getElem?_cons_zero]

/-- C4: for length-`n` (`n ≥ 1`) inputs with entries in `[0, n)`, `combine`
returns `k` such that the set of values of the rewritten `result` is exactly
`{0, 1, …, k−1}`. -/
theorem C4_combine_dense (result labels : List Nat) (n : Nat)
    (hn : 1 ≤ n) (hr : result.length = n) (hl : labels.length = n)
    (hrb : ∀ x ∈ result, x < n) (hlb : ∀ x ∈ labels, x < n) :
    ∃ k res, combine result labels n = some (k, res) ∧
      (∀ v, v < n → ∃ m, res[v]? = some m ∧ m < k) ∧
      (∀ j, j < k → ∃ v, v < n ∧ res[v]? = some j) := by
  obtain ⟨temp, res, hperm, heq, hlen, hidx⟩ := combine_spec result labels n hn hr hl hlb
  set key := ckey result labels with hkeyd
  set vals := walkVals key (key (temp.getD 0 0)) 0 temp with hvals
  have htlen : temp.length = n := by simpa using hperm.length_eq
  have hvlen : vals.length = n := by rw [hvals, walkVals_length]; exact htlen
  refine ⟨vals.getLastD 0 + 1, res, heq, ?_, ?_⟩
  · intro v hv
    have hvmem : v ∈ temp := hperm.mem_iff.mpr (List.mem_range.mpr hv)
    obtain ⟨i, hi, hti⟩ := List.getElem_of_mem hvmem
    have hgd : temp.getD i 0 = v := by rw [List.getD_eq_getElem temp 0 hi, hti]
    have hiv : i < n := by omega
    refine ⟨vals.getD i 0, ?_, ?_⟩
    · rw [← hgd, hidx i hiv]
      rw [List.getD_eq_getElem vals 0 (by omega)]
      exact List.getElem?_eq_getElem (by omega)
    · have hmem : vals.getD i 0 ∈ vals := by
        rw [List.getD_eq_getElem vals 0 (by omega)]
        exact List.getElem_mem (by omega)
      have hb := walkVals_bounds key (key (temp.getD 0 0)) 0 temp _ hmem
      rw [← hvals] at hb
      omega
  · intro j hj
    have hj' : j ≤ vals.getLastD 0 := by omega
    have htmem0 : temp.getD 0 0 ∈ temp := by
      rw [List.getD_eq_getElem temp 0 (by omega)]
      exact List.getElem_mem (by omega)
    by_cases hj0 : j = 0
    · subst hj0
      refine ⟨temp.getD 0 0, List.mem_range.mp (hperm.mem_iff.mp htmem0), ?_⟩
      rw [hidx 0 hn]
      obtain ⟨a, l, hal⟩ : ∃ a l, temp = a :: l := by
        cases htt : temp with
        | nil => rw [htt] at htlen; simp at htlen; omega
        | cons a l => exact ⟨a, l, rfl⟩
      have ha0 : temp.getD 0 0 = a := by rw [hal]; rfl
      rw [hvals, ha0, hal]
      exact walkVals_self_head key a l
    · have hjv : j ∈ vals := walkVals_surj key _ 0 temp j (by omega) hj'
      obtain ⟨i, hi, hvi⟩ := List.getElem_of_mem hjv
      have hin : i < n := by omega
      have htm : temp.getD i 0 ∈ temp := by
        rw [List.getD_eq_getElem temp 0 (by omega)]
        exact List.getElem_mem (by omega)
      refine ⟨temp.getD i 0, List.mem_range.mp (hperm.mem_iff.mp htm), ?_⟩
      rw [hidx i hin, List.getElem?_eq_getElem hi, hvi]

theorem C4_combine_dense_witness :
    ((1 : Nat) ≤ 1 ∧ ([0] : List Nat).length = 1 ∧ ([0] : List Nat).length = 1 ∧
      (∀ x ∈ ([0] : List Nat), x < 1) ∧ (∀ x ∈ ([0] : List Nat), x < 1)) ∧
    ∃ k res, combine [0] [0] 1 = some (k, res) ∧
      (∀ v, v < 1 → ∃ m, res[v]? = some m ∧ m < k) ∧
      (∀ j, j < k → ∃ v, v < 1 ∧ res[v]? = some j) :=
  ⟨⟨le_refl 1, rfl, rfl, by decide, by decide⟩,
   C4_combine_dense [0] [0] 1 (le_refl 1) rfl rfl (by decide) (by decide)⟩

/-- C5: `combine` refines both inputs: if `result` or `labels` distinguishes
`u` and `v` before the call, the rewritten `result` distinguishes them. -/
theorem C5_combine_refines (result labels : List Nat) (n u v : Nat)
    (hn : 1 ≤ n) (hr : result.length = n) (hl : labels.length = n)
    (hrb : ∀ x ∈ result, x < n) (hlb : ∀ x ∈ labels, x < n)
    (hu : u < n) (hv : v < n)
    (hne : result.getD u 0 ≠ result.getD v 0 ∨ labels.getD u 0 ≠ labels.getD v 0) :
    ∃ k res, combine result labels n = some (k, res) ∧
      ∃ mu mv, res[u]? = some mu ∧ res[v]? = some mv ∧ mu ≠ mv := by
  obtain ⟨temp, res, hperm, heq, hlen, hidx⟩ := combine_spec result labels n hn hr hl hlb
  set key := ckey result labels with hkeyd
  set vals := walkVals key (key (temp.getD 0 0)) 0 temp with hvals
  have htlen : temp.length = n := by simpa using hperm.length_eq
  have hvlen : vals.length = n := by rw [hvals, walkVals_length]; exact htlen
  have hkeyne : key u ≠ key v := by
    rw [hkeyd]
    intro h
    rw [ckey, ckey, Prod.mk.injEq] at h
    rcases hne with h1 | h1
    · exact h1 h.1
    · exact h1 h.2
  have huv : u ≠ v := fun h => hkeyne (h ▸ rfl)
  obtain ⟨i, hi, hti⟩ := List.getElem_of_mem (hperm.mem_iff.mpr (List.mem_range.mpr hu))
  obtain ⟨j, hj, htj⟩ := List.getElem_of_mem (hperm.mem_iff.mpr (List.mem_range.mpr hv))
  have hgi : temp.getD i 0 = u := by rw [List.getD_eq_getElem temp 0 hi, hti]
  have hgj : temp.getD j 0 = v := by rw [List.getD_eq_getElem temp 0 hj, htj]
  have hresu : res[u]? = some (vals.getD i 0) := by
    rw [← hgi, hidx i (by omega), List.getD_eq_getElem vals 0 (by omega)]
    exact List.getElem?_eq_getElem (by omega)
  have hresv : res[v]? = some (vals.getD j 0) := by
    rw [← hgj, hidx j (by omega), List.getD_eq_getElem vals 0 (by omega)]
    exact List.getElem?_eq_getElem (by omega)
  refine ⟨_, res, heq, vals.getD i 0, vals.getD j 0, hresu, hresv, ?_⟩
  intro hval
  rcases Nat.le_total i j with hij | hij
  · have := walkVals_eq_key key (key (temp.getD 0 0)) 0 temp i j hij (by omega) hval
    rw [hgi, hgj] at this
    exact hkeyne this
  · have := walkVals_eq_key key (key (temp.getD 0 0)) 0 temp j i hij (by omega) hval.symm
    rw [hgi, hgj] at this
    exact hkeyne this.symm

theorem C5_combine_refines_witness :
    ((1 : Nat) ≤ 2 ∧ ([0, 1] : List Nat).length = 2 ∧ ([0, 0] : List Nat).length = 2 ∧
      (∀ x ∈ ([0, 1] : List Nat), x < 2) ∧ (∀ x ∈ ([0, 0] : List Nat), x < 2) ∧
      (0 : Nat) < 2 ∧ (1 : Nat) < 2 ∧
      (([0, 1] : List Nat).getD 0 0 ≠ ([0, 1] : List Nat).getD 1 0 ∨
        ([0, 0] : List Nat).getD 0 0 ≠ ([0, 0] : List Nat).getD 1 0)) ∧
    ∃ k res, combine [0, 1] [0, 0] 2 = some (k, res) ∧
      ∃ mu mv, res[0]? = some mu ∧ res[1]? = some mv ∧ mu ≠ mv :=
  ⟨⟨by decide, rfl, rfl, by decide, by decide, by decide, by decide, by decide⟩,
   C5_combine_refines [0, 1] [0, 0] 2 0 1 (by decide) rfl rfl (by decide) (by decide)
     (by decide) (by decide) (by decide)⟩

/-- C10: under the precondition (all lengths `n ≥ 1`, `labels` entries below
`n`) every slice access of `combine` is in bounds, so it returns a value and
the panic branch (`none`) is unreachable; `n = 0` lies outside the domain
because `temp_perm[0]` is read unconditionally. -/
theorem combine_at_zero (result labels : List Nat) :
    combine result labels 0 = none := by
  have hsort0 : combineSort result labels 0 = some [] := by
    unfold combineSort
    rw [List.range_zero]
    show some ((([] : List (Nat × Nat × Nat × Nat)).mergeSort fun p q =>
        !decide (combineCmp p.2 q.2 = Ordering.gt)).map (·.1)) = some []
    rw [List.mergeSort_nil]
    rfl
  unfold combine
  rw [hsort0]
  rfl

theorem C10_combine_in_bounds_total (result labels : List Nat) (n : Nat)
    (hn : 1 ≤ n) (hr : result.length = n) (hl : labels.length = n)
    (hlb : ∀ x ∈ labels, x < n) :
    (∃ out, combine result labels n = some out) ∧
      combine result labels 0 = none := by
  constructor
  · obtain ⟨temp, res, _, heq, _, _⟩ := combine_spec result labels n hn hr hl hlb
    exact ⟨_, heq⟩
  · exact combine_at_zero result labels

theorem C10_combine_in_bounds_total_witness :
    ((1 : Nat) ≤ 1 ∧ ([0] : List Nat).length = 1 ∧ ([0] : List Nat).length = 1 ∧
      (∀ x ∈ ([0] : List Nat), x < 1)) ∧
    ((∃ out, combine [0] [0] 1 = some out) ∧ combine [0] [0] 0 = none) :=
  ⟨⟨le_refl 1, rfl, rfl, by decide⟩,
   C10_combine_in_bounds_total [0] [0] 1 (le_refl 1) rfl rfl (by decide)⟩

/-! ## `invert_in_place` (`mod.rs`, lines 393–412)

The sign bit (on 64-bit `usize`) marks visited entries: unvisited entries are
below `2^63`, visited ones are stored as the bitwise complement `!x` of their
final value.  Entries are `Nat` below `2^64`; `!x` becomes `wNot x =
2^64 - 1 - x` and `(i as isize) < 0` becomes `2^63 ≤ i`.  The inner `loop`
walks a cycle of the permutation; it is embedded with explicit fuel (the
outer driver passes `perm.len() + 1`, which exceeds every cycle length), and
`none` models both fuel exhaustion (impossible on permutations) and an
out-of-bounds panic. -/

/-- The bitwise complement `!x` of a 64-bit value. -/
def wNot (x : Nat) : Nat := 2 ^ 64 - 1 - x

/-- The inner `loop` (`mod.rs`, lines 400–409): state `(k, i)`; reads
`j = perm[i]`, writes `perm[i] = !k`, and either finishes the cycle
(`perm[n] = i`) or advances `k = i; i = j`. -/
def cycleLoop : Nat → List Nat → Nat → Nat → Nat → Option (List Nat)
  | 0, _, _, _, _ => none
  | fuel + 1, p, nn, k, i => do
    let j ← p[i]?
    let p1 := p.set i (wNot k)
    if j = nn then some (p1.set nn i)
    else cycleLoop fuel p1 nn i j

/-- One iteration of the outer `for n in 0..perm.len()` loop. -/
def invertStep (p : List Nat) (nn : Nat) : Option (List Nat) := do
  let i ← p[nn]?
  if 2 ^ 63 ≤ i then some (p.set nn (wNot i))
  else if i ≠ nn then cycleLoop (p.length + 1) p nn nn i
  else some p

/-- `invert_in_place` (`mod.rs`, lines 393–412). -/
def invert_in_place (p : List Nat) : Option (List Nat) :=
  (List.range p.length).foldlM invertStep p

/-- The permutation `q` as a function (identity outside `[0, q.length)`). -/
def permF (q : List Nat) (m : Nat) : Nat := q.getD m m

/-- The inverse permutation as a function: the index of `m` in `q`. -/
def permInv (q : List Nat) (m : Nat) : Nat := List.indexOf m q

theorem nodup_lt_length_le (l : List Nat) (N : Nat) (hnd : l.Nodup)
    (hb : ∀ x ∈ l, x < N) : l.length ≤ N := by
  have h1 : l.toFinset ⊆ Finset.range N := fun x hx =>
    Finset.mem_range.mpr (hb x (List.mem_toFinset.mp hx))
  have h2 := Finset.card_le_card h1
  rw [List.toFinset_card_of_nodup hnd] at h2
  simpa using h2

/-- A length-`n` duplicate-free list with entries in `[0, n)` contains every
value of `[0, n)`. -/
theorem perm_mem_of_lt (q : List Nat) (hmem : ∀ x ∈ q, x < q.length)
    (hnd : q.Nodup) (m : Nat) (hm : m < q.length) : m ∈ q := by
  have h1 : q.toFinset ⊆ Finset.range q.length := fun x hx =>
    Finset.mem_range.mpr (hmem x (List.mem_toFinset.mp hx))
  have h2 : q.toFinset = Finset.range q.length := by
    refine Finset.eq_of_subset_of_card_le h1 ?_
    rw [List.toFinset_card_of_nodup hnd]
    simp
  have : m ∈ q.toFinset := by
    rw [h2]
    exact Finset.mem_range.mpr hm
  exact List.mem_toFinset.mp this

theorem permF_lt (q : List Nat) (hmem : ∀ x ∈ q, x < q.length)
    (m : Nat) (hm : m < q.length) : permF q m < q.length := by
  rw [permF, List.getD_eq_getElem q m hm]
  exact hmem _ (List.getElem_mem hm)

theorem permF_getElem (q : List Nat) (m : Nat) (hm : m < q.length) :
    permF q m = q[m] := List.getD_eq_getElem q m hm

theorem permF_injective (q : List Nat) (hmem : ∀ x ∈ q, x < q.length)
    (hnd : q.Nodup) : Function.Injective (permF q) := by
  intro a b hab
  by_cases ha : a < q.length <;> by_cases hb : b < q.length
  · rw [permF_getElem q a ha, permF_getElem q b hb] at hab
    exact (hnd.getElem_inj_iff).mp hab
  · exfalso
    rw [permF_getElem q a ha] at hab
    have h1 : q[a] < q.length := hmem _ (List.getElem_mem ha)
    rw [permF, List.getD_eq_default] at hab
    · omega
    · omega
  · exfalso
    rw [permF_getElem q b hb] at hab
    have h1 : q[b] < q.length := hmem _ (List.getElem_mem hb)
    rw [permF, List.getD_eq_default] at hab
    · omega
    · omega
  · rw [permF, List.getD_eq_default _ _ (by omega),
        permF, List.getD_eq_default _ _ (by omega)] at hab
    exact hab

theorem permInv_permF (q : List Nat) (hnd : q.Nodup) (m : Nat)
    (hm : m < q.length) : permInv q (permF q m) = m := by
  rw [permInv, permF_getElem q m hm]
  exact List.indexOf_getElem hnd m hm

theorem permF_permInv (q : List Nat) (m : Nat) (hm : m ∈ q) :
    permF q (permInv q m) = m ∧ permInv q m < q.length := by
  have hlt : List.indexOf m q < q.length := List.indexOf_lt_length.mpr hm
  constructor
  · rw [permF, permInv, List.getD_eq_getElem q _ hlt]
    exact List.getElem_indexOf hlt
  · exact hlt

theorem permF_iterate_lt (q : List Nat) (hmem : ∀ x ∈ q, x < q.length)
    (s m : Nat) (hm : m < q.length) : (permF q)^[s] m < q.length := by
  induction s with
  | zero => simpa using hm
  | succ k ih =>
    rw [Function.iterate_succ_apply']
    exact permF_lt q hmem _ ih

/-- A positive period of `nn` under `permF q`, at most `q.length`. -/
theorem permF_period_exists (q : List Nat) (hmem : ∀ x ∈ q, x < q.length)
    (hnd : q.Nodup) (nn : Nat) (hnn : nn < q.length) :
    ∃ c, 0 < c ∧ c ≤ q.length ∧ (permF q)^[c] nn = nn := by
  set n := q.length with hn
  have hmap : ∀ s : Fin (n + 1), (permF q)^[s.1] nn < n :=
    fun s => permF_iterate_lt q hmem s.1 nn hnn
  obtain ⟨a, b, hab, heq⟩ := Fintype.exists_ne_map_eq_of_card_lt
    (fun s : Fin (n + 1) => (⟨(permF q)^[s.1] nn, hmap s⟩ : Fin n)) (by simp)
  have heq2 : (permF q)^[a.1] nn = (permF q)^[b.1] nn := by
    have := congrArg Fin.val heq
    simpa using this
  rcases Nat.lt_or_ge a.1 b.1 with h | h
  · refine ⟨b.1 - a.1, by omega, by omega, ?_⟩
    have hsplit : (permF q)^[a.1] ((permF q)^[b.1 - a.1] nn) = (permF q)^[a.1] nn := by
      rw [← Function.iterate_add_apply]
      rw [show a.1 + (b.1 - a.1) = b.1 by omega]
      exact heq2.symm
    exact ((permF_injective q hmem hnd).iterate a.1) hsplit
  · have h' : b.1 < a.1 := by
      rcases Nat.lt_or_ge b.1 a.1 with h2 | h2
      · exact h2
      · exact absurd (Fin.ext (by omega)) hab
    refine ⟨a.1 - b.1, by omega, by omega, ?_⟩
    have hsplit : (permF q)^[b.1] ((permF q)^[a.1 - b.1] nn) = (permF q)^[b.1] nn := by
      rw [← Function.iterate_add_apply]
      rw [show b.1 + (a.1 - b.1) = a.1 by omega]
      exact heq2
    exact ((permF_injective q hmem hnd).iterate b.1) hsplit

theorem iterate_cycle_mod (f : Nat → Nat) (nn c : Nat) (hc : 0 < c)
    (hcyc : f^[c] nn = nn) : ∀ s, f^[s] nn = f^[s % c] nn := by
  have hmul : ∀ k, f^[c * k] nn = nn := by
    intro k
    induction k with
    | zero => simp
    | succ k ih =>
      rw [show c * (k + 1) = c * k + c by ring, Function.iterate_add_apply, hcyc]
      exact ih
  intro s
  conv_lhs => rw [(Nat.mod_add_div s c).symm]
  rw [Function.iterate_add_apply, hmul]

/-- Correctness of the inner cycle walk: starting at step `s ∈ [1, c-1]` of a
cycle of length `c` whose unvisited tail still holds the original values, the
loop terminates, complements each tail element `f^[u] nn` to `!f^[u-1] nn`,
stores the cycle predecessor of `nn` at `nn`, and touches nothing else. -/
theorem cycleLoop_spec (f : Nat → Nat) (nn c : Nat)
    (hcyc : f^[c] nn = nn)
    (hdist : ∀ u v, u < v → v < c → f^[u] nn ≠ f^[v] nn) :
    ∀ d s p fuel, s + d + 1 = c → 1 ≤ s → c - s ≤ fuel → nn < p.length →
      (∀ u, s ≤ u → u ≤ c - 1 → p[f^[u] nn]? = some (f (f^[u] nn))) →
      ∃ p2, cycleLoop fuel p nn (f^[s-1] nn) (f^[s] nn) = some p2 ∧
        p2.length = p.length ∧
        (∀ m, m ≠ nn → (∀ u, s ≤ u → u ≤ c - 1 → m ≠ f^[u] nn) → p2[m]? = p[m]?) ∧
        (∀ u, s ≤ u → u ≤ c - 1 → p2[f^[u] nn]? = some (wNot (f^[u-1] nn))) ∧
        p2[nn]? = some (f^[c-1] nn) := by
  intro d
  induction d with
  | zero =>
    intro s p fuel hs1 hs2 hfuel hnn hp
    have hsc : s = c - 1 := by omega
    have hes : p[f^[s] nn]? = some (f (f^[s] nn)) := hp s (le_refl s) (by omega)
    have heslen : f^[s] nn < p.length := (List.getElem?_eq_some.mp hes).1
    obtain ⟨fuel1, rfl⟩ : ∃ k, fuel = k + 1 := ⟨fuel - 1, by omega⟩
    have hstop : f (f^[s] nn) = nn := by
      have h := Function.iterate_succ_apply' f s nn
      rw [show s.succ = c by omega, hcyc] at h
      exact h.symm
    have hesne : f^[s] nn ≠ nn := by
      intro h
      exact hdist 0 s (by omega) (by omega) (by simpa using h.symm)
    refine ⟨(p.set (f^[s] nn) (wNot (f^[s-1] nn))).set nn (f^[s] nn), ?_, ?_, ?_, ?_, ?_⟩
    · show (do
        let j ← p[f^[s] nn]?
        let p1 := p.set (f^[s] nn) (wNot (f^[s-1] nn))
        if j = nn then some (p1.set nn (f^[s] nn))
        else cycleLoop fuel1 p1 nn (f^[s] nn) j) = _
      rw [hes]
      show (if f (f^[s] nn) = nn then
          some ((p.set (f^[s] nn) (wNot (f^[s-1] nn))).set nn (f^[s] nn))
        else cycleLoop fuel1 (p.set (f^[s] nn) (wNot (f^[s-1] nn))) nn
          (f^[s] nn) (f (f^[s] nn))) = _
      rw [if_pos hstop]
    · simp
    · intro m hm hmc
      rw [List.getElem?_set_ne (fun h => hm h.symm),
          List.getElem?_set_ne (fun h => hmc s (le_refl s) (by omega) h.symm)]
    · intro u hu1 hu2
      have huu : u = s := by omega
      subst huu
      rw [List.getElem?_set_ne (fun h => hesne h.symm),
          List.getElem?_set_self heslen]
    · rw [List.getElem?_set_self (by simpa using hnn), ← hsc]
  | succ d ih =>
    intro s p fuel hs1 hs2 hfuel hnn hp
    have hsc : s + 1 ≤ c - 1 := by omega
    have hes : p[f^[s] nn]? = some (f (f^[s] nn)) := hp s (le_refl s) (by omega)
    have heslen : f^[s] nn < p.length := (List.getElem?_eq_some.mp hes).1
    obtain ⟨fuel1, rfl⟩ : ∃ k, fuel = k + 1 := ⟨fuel - 1, by omega⟩
    have hnext : f (f^[s] nn) = f^[s+1] nn := (Function.iterate_succ_apply' f s nn).symm
    have hgo : f^[s+1] nn ≠ nn := by
      intro h
      exact hdist 0 (s+1) (by omega) (by omega) (by simpa using h.symm)
    have hesne : ∀ u, s + 1 ≤ u → u ≤ c - 1 → f^[u] nn ≠ f^[s] nn :=
      fun u hu1 hu2 h => hdist s u (by omega) (by omega) h.symm
    set p1 := p.set (f^[s] nn) (wNot (f^[s-1] nn)) with hp1
    have hp1len : p1.length = p.length := by rw [hp1]; simp
    have hp1tail : ∀ u, s + 1 ≤ u → u ≤ c - 1 → p1[f^[u] nn]? = some (f (f^[u] nn)) := by
      intro u hu1 hu2
      rw [hp1, List.getElem?_set_ne (fun h => hesne u hu1 hu2 h.symm)]
      exact hp u (by omega) hu2
    obtain ⟨p2, heq, hlen, hout, hvis, hend⟩ :=
      ih (s+1) p1 fuel1 (by omega) (by omega) (by omega) (by omega) hp1tail
    have hss : s + 1 - 1 = s := by omega
    rw [hss] at heq
    refine ⟨p2, ?_, ?_, ?_, ?_, ?_⟩
    · show (do
        let j ← p[f^[s] nn]?
        let p10 := p.set (f^[s] nn) (wNot (f^[s-1] nn))
        if j = nn then some (p10.set nn (f^[s] nn))
        else cycleLoop fuel1 p10 nn (f^[s] nn) j) = _
      rw [hes]
      show (if f (f^[s] nn) = nn then
          some ((p.set (f^[s] nn) (wNot (f^[s-1] nn))).set nn (f^[s] nn))
        else cycleLoop fuel1 (p.set (f^[s] nn) (wNot (f^[s-1] nn))) nn
          (f^[s] nn) (f (f^[s] nn))) = _
      rw [hnext, if_neg hgo, ← hp1]
      exact heq
    · rw [hlen, hp1len]
    · intro m hm hmc
      rw [hout m hm (fun u hu1 hu2 => hmc u (by omega) hu2), hp1,
          List.getElem?_set_ne (fun h => hmc s (le_refl s) (by omega) h.symm)]
    · intro u hu1 hu2
      rcases Nat.lt_or_ge s u with hu | hu
      · exact hvis u (by omega) hu2
      · have huu : u = s := by omega
        subst huu
        have h0 : f^[u] nn ≠ nn := fun h =>
          hdist 0 u (by omega) (by omega) (by simpa using h.symm)
        rw [hout (f^[u] nn) h0 (fun v hv1 hv2 h => hesne v hv1 hv2 h.symm), hp1,
            List.getElem?_set_self heslen]
    · exact hend

/-- Some already-processed index `j < nn` reaches `m` by iterating the
permutation: `m`'s cycle has been walked. -/
def Reached (f : Nat → Nat) (nn m : Nat) : Prop :=
  ∃ j s, j < nn ∧ f^[s] j = m

/-- Invariant of the outer loop of `invert_in_place` after processing the
indices `[0, nn)`: processed entries hold the inverse, entries of walked
cycles hold the complemented inverse, everything else is untouched. -/
def InvState (q : List Nat) (nn : Nat) (p : List Nat) : Prop :=
  p.length = q.length ∧
  (∀ m, m < nn → m < q.length → p[m]? = some (permInv q m)) ∧
  (∀ m, nn ≤ m → m < q.length → Reached (permF q) nn m →
    p[m]? = some (wNot (permInv q m))) ∧
  (∀ m, nn ≤ m → m < q.length → ¬ Reached (permF q) nn m →
    p[m]? = some (permF q m))

theorem reached_mono {f : Nat → Nat} {nn m : Nat} (h : Reached f nn m) :
    Reached f (nn + 1) m := by
  obtain ⟨j, s, hj, hjs⟩ := h
  exact ⟨j, s, by omega, hjs⟩

theorem reached_trans {f : Nat → Nat} {nn m m2 : Nat} (h : Reached f nn m)
    (s : Nat) (hs : f^[s] m = m2) : Reached f nn m2 := by
  obtain ⟨j, s0, hj, hjs⟩ := h
  exact ⟨j, s + s0, hj, by rw [Function.iterate_add_apply, hjs, hs]⟩

theorem iterate_fixed {f : Nat → Nat} {nn : Nat} (h : f nn = nn) :
    ∀ s, f^[s] nn = nn := by
  intro s
  induction s with
  | zero => rfl
  | succ k ih => rw [Function.iterate_succ_apply', ih, h]

theorem invState_init (q : List Nat) : InvState q 0 q := by
  refine ⟨rfl, fun m hm _ => by omega, fun m _ _ hR => ?_, fun m _ hm _ => ?_⟩
  · obtain ⟨j, s, hj, _⟩ := hR
    omega
  · rw [List.getElem?_eq_getElem hm, permF_getElem q m hm]

/-- One step of the outer loop of `invert_in_place` preserves the
invariant. -/
theorem invertStep_inv (q : List Nat) (hmem : ∀ x ∈ q, x < q.length)
    (hnd : q.Nodup) (h63 : q.length ≤ 2 ^ 63)
    (nn : Nat) (hnn : nn < q.length) (p : List Nat) (hinv : InvState q nn p) :
    ∃ p2, invertStep p nn = some p2 ∧ InvState q (nn + 1) p2 := by
  obtain ⟨hlen, hA, hBr, hBu⟩ := hinv
  have hplen : nn < p.length := by omega
  by_cases hR : Reached (permF q) nn nn
  · -- nn's cycle was walked earlier: the complemented entry is flipped back
    have hpn : p[nn]? = some (wNot (permInv q nn)) := hBr nn (le_refl nn) hnn hR
    have hinvlt : permInv q nn < q.length :=
      (permF_permInv q nn (perm_mem_of_lt q hmem hnd nn hnn)).2
    have hbig : 2 ^ 63 ≤ wNot (permInv q nn) := by
      rw [wNot]; omega
    have hwn : wNot (wNot (permInv q nn)) = permInv q nn := by
      rw [wNot, wNot]; omega
    refine ⟨p.set nn (permInv q nn), ?_, ?_, ?_, ?_, ?_⟩
    · unfold invertStep
      rw [hpn]
      show (if 2 ^ 63 ≤ wNot (permInv q nn) then
          some (p.set nn (wNot (wNot (permInv q nn))))
        else if wNot (permInv q nn) ≠ nn then
          cycleLoop (p.length + 1) p nn nn (wNot (permInv q nn))
        else some p) = _
      rw [if_pos hbig, hwn]
    · simp [hlen]
    · intro m hm hmn
      rcases Nat.lt_or_ge m nn with h | h
      · rw [List.getElem?_set_ne (by omega)]
        exact hA m h hmn
      · have hmeq : m = nn := by omega
        subst hmeq
        rw [List.getElem?_set_self hplen]
    · intro m hm hmn hRm
      rw [List.getElem?_set_ne (by omega)]
      refine hBr m (by omega) hmn ?_
      obtain ⟨j, s, hj, hjs⟩ := hRm
      rcases Nat.lt_or_ge j nn with h | h
      · exact ⟨j, s, h, hjs⟩
      · have hjeq : j = nn := by omega
        subst hjeq
        exact reached_trans hR s hjs
    · intro m hm hmn hRm
      rw [List.getElem?_set_ne (by omega)]
      exact hBu m (by omega) hmn (fun h => hRm (reached_mono h))
  · have hpn : p[nn]? = some (permF q nn) := hBu nn (le_refl nn) hnn hR
    have hfnn : permF q nn < q.length := permF_lt q hmem nn hnn
    have hsmall : ¬ 2 ^ 63 ≤ permF q nn := by omega
    by_cases hfix : permF q nn = nn
    · -- fixed point: nothing to do
      refine ⟨p, ?_, hlen, ?_, ?_, ?_⟩
      · unfold invertStep
        rw [hpn]
        show (if 2 ^ 63 ≤ permF q nn then some (p.set nn (wNot (permF q nn)))
          else if permF q nn ≠ nn then cycleLoop (p.length + 1) p nn nn (permF q nn)
          else some p) = _
        rw [if_neg hsmall, if_neg (fun h => h hfix)]
      · intro m hm hmn
        rcases Nat.lt_or_ge m nn with h | h
        · exact hA m h hmn
        · have hmeq : m = nn := by omega
          subst hmeq
          have hinv_eq : permInv q m = m := by
            have h1 := permInv_permF q hnd m hmn
            rw [hfix] at h1
            exact h1
          rw [hpn, hfix, hinv_eq]
      · intro m hm hmn hRm
        refine hBr m (by omega) hmn ?_
        obtain ⟨j, s, hj, hjs⟩ := hRm
        rcases Nat.lt_or_ge j nn with h | h
        · exact ⟨j, s, h, hjs⟩
        · have hjeq : j = nn := by omega
          subst hjeq
          rw [iterate_fixed hfix s] at hjs
          omega
      · intro m hm hmn hRm
        exact hBu m (by omega) hmn (fun h => hRm (reached_mono h))
    · -- walk nn's cycle
      obtain ⟨c0, hc0pos, hc0le, hc0cyc⟩ := permF_period_exists q hmem hnd nn hnn
      have hPex : ∃ c, 0 < c ∧ (permF q)^[c] nn = nn := ⟨c0, hc0pos, hc0cyc⟩
      have hc := Nat.find_spec hPex
      set c := Nat.find hPex with hcdef
      have hcmin : ∀ d, d < c → ¬(0 < d ∧ (permF q)^[d] nn = nn) :=
        fun d hd => Nat.find_min hPex hd
      have hcle : c ≤ q.length := le_trans (Nat.find_min' hPex ⟨hc0pos, hc0cyc⟩) hc0le
      have hc2 : 2 ≤ c := by
        rcases Nat.lt_or_ge c 2 with h | h
        · exfalso
          have hc1 : c = 1 := by omega
          rw [hc1] at hc
          exact hfix (by simpa using hc.2)
        · exact h
      have hdist : ∀ u v, u < v → v < c → (permF q)^[u] nn ≠ (permF q)^[v] nn := by
        intro u v huv hv heq
        refine hcmin (v - u) (by omega) ⟨by omega, ?_⟩
        have h2 : (permF q)^[u] ((permF q)^[v-u] nn) = (permF q)^[u] nn := by
          rw [← Function.iterate_add_apply, show u + (v - u) = v by omega]
          exact heq.symm
        exact ((permF_injective q hmem hnd).iterate u) h2
      have htail : ∀ u, 1 ≤ u → u ≤ c - 1 →
          (permF q)^[u] nn < q.length ∧ nn < (permF q)^[u] nn ∧
            ¬ Reached (permF q) nn ((permF q)^[u] nn) := by
        intro u hu1 hu2
        have hlt : (permF q)^[u] nn < q.length := permF_iterate_lt q hmem u nn hnn
        have hback : (permF q)^[c - u] ((permF q)^[u] nn) = nn := by
          rw [← Function.iterate_add_apply, show (c - u) + u = c by omega]
          exact hc.2
        have hne : (permF q)^[u] nn ≠ nn := fun h =>
          hdist 0 u (by omega) (by omega) (by simpa using h.symm)
        have hnr : ¬ Reached (permF q) nn ((permF q)^[u] nn) := by
          intro hRm
          exact hR (reached_trans hRm (c - u) hback)
        have hge : nn ≤ (permF q)^[u] nn := by
          by_contra hcon
          push_neg at hcon
          exact hR ⟨(permF q)^[u] nn, c - u, hcon, hback⟩
        exact ⟨hlt, by omega, hnr⟩
      have hptail : ∀ u, 1 ≤ u → u ≤ c - 1 →
          p[(permF q)^[u] nn]? = some (permF q ((permF q)^[u] nn)) := by
        intro u hu1 hu2
        obtain ⟨hlt, hgt, hnr⟩ := htail u hu1 hu2
        exact hBu ((permF q)^[u] nn) (by omega) hlt hnr
      obtain ⟨p2, heq, hlen2, hout, hvis, hend⟩ :=
        cycleLoop_spec (permF q) nn c hc.2 hdist (c - 2) 1 p (p.length + 1)
          (by omega) (le_refl 1) (by omega) hplen hptail
      rw [show (1 : Nat) - 1 = 0 from rfl, Function.iterate_zero_apply,
          Function.iterate_one] at heq
      refine ⟨p2, ?_, hlen2.trans hlen, ?_, ?_, ?_⟩
      · unfold invertStep
        rw [hpn]
        show (if 2 ^ 63 ≤ permF q nn then some (p.set nn (wNot (permF q nn)))
          else if permF q nn ≠ nn then cycleLoop (p.length + 1) p nn nn (permF q nn)
          else some p) = _
        rw [if_neg hsmall, if_pos hfix]
        exact heq
      · intro m hm hmn
        rcases Nat.lt_or_ge m nn with h | h
        · rw [hout m (by omega) ?_]
          · exact hA m h hmn
          · intro u hu1 hu2 hmu
            have := (htail u hu1 hu2).2.1
            omega
        · have hmeq : m = nn := by omega
          subst hmeq
          rw [hend]
          have hc1lt : (permF q)^[c-1] m < q.length := permF_iterate_lt q hmem _ m hmn
          have hstep1 : permF q ((permF q)^[c-1] m) = m := by
            have h := Function.iterate_succ_apply' (permF q) (c-1) m
            rw [show (c-1).succ = c by omega, hc.2] at h
            exact h.symm
          have hinv_eq : permInv q m = (permF q)^[c-1] m := by
            have h2 := permInv_permF q hnd ((permF q)^[c-1] m) hc1lt
            rw [hstep1] at h2
            exact h2
          rw [hinv_eq]
      · intro m hm hmn hRm
        by_cases hcm : ∃ u, 1 ≤ u ∧ u ≤ c - 1 ∧ (permF q)^[u] nn = m
        · obtain ⟨u, hu1, hu2, hum⟩ := hcm
          rw [← hum, hvis u hu1 hu2]
          have hu1lt : (permF q)^[u-1] nn < q.length := permF_iterate_lt q hmem _ nn hnn
          have hstepu : permF q ((permF q)^[u-1] nn) = (permF q)^[u] nn := by
            have h := Function.iterate_succ_apply' (permF q) (u-1) nn
            rw [show (u-1).succ = u by omega] at h
            exact h.symm
          have hinv_eq : permInv q ((permF q)^[u] nn) = (permF q)^[u-1] nn := by
            have h2 := permInv_permF q hnd ((permF q)^[u-1] nn) hu1lt
            rw [hstepu] at h2
            exact h2
          rw [hinv_eq]
        · push_neg at hcm
          obtain ⟨j, s, hj, hjs⟩ := hRm
          have hjlt : j < nn := by
            rcases Nat.lt_or_ge j nn with h | h
            · exact h
            · exfalso
              have hjeq : j = nn := by omega
              subst hjeq
              have hmod := iterate_cycle_mod (permF q) j c (by omega) hc.2 s
              rw [hjs] at hmod
              have hsc : s % c < c := Nat.mod_lt _ (by omega)
              by_cases hs0 : s % c = 0
              · rw [hs0] at hmod
                simp at hmod
                omega
              · exact hcm (s % c) (by omega) (by omega) hmod.symm
          rw [hout m (by omega) (fun u hu1 hu2 h => hcm u hu1 hu2 h.symm)]
          exact hBr m (by omega) hmn ⟨j, s, hjlt, hjs⟩
      · intro m hm hmn hRm
        have hncm : ∀ u, 1 ≤ u → u ≤ c - 1 → m ≠ (permF q)^[u] nn := by
          intro u hu1 hu2 h
          exact hRm ⟨nn, u, by omega, h.symm⟩
        rw [hout m (by omega) hncm]
        exact hBu m (by omega) hmn (fun h => hRm (reached_mono h))

theorem invert_fold_inv (q : List Nat) (hmem : ∀ x ∈ q, x < q.length)
    (hnd : q.Nodup) (h63 : q.length ≤ 2 ^ 63) :
    ∀ k, k ≤ q.length →
      ∃ p, (List.range k).foldlM invertStep q = some p ∧ InvState q k p := by
  intro k
  induction k with
  | zero => exact fun _ => ⟨q, rfl, invState_init q⟩
  | succ k ih =>
    intro hk
    obtain ⟨p, hp, hinv⟩ := ih (by omega)
    obtain ⟨p2, hstep, hinv2⟩ := invertStep_inv q hmem hnd h63 k (by omega) p hinv
    refine ⟨p2, ?_, hinv2⟩
    rw [List.range_succ, List.foldlM_append, hp]
    show (do
      let x ← invertStep p k
      pure x) = some p2
    rw [hstep]
    rfl

/-- `invert_in_place` on a permutation of `[0, n)` (entries below `2^63`)
returns exactly the inverse permutation `[permInv q 0, …, permInv q (n-1)]`. -/
theorem invert_spec (q : List Nat) (hmem : ∀ x ∈ q, x < q.length)
    (hnd : q.Nodup) (h63 : ∀ x ∈ q, x < 2 ^ 63) :
    invert_in_place q = some ((List.range q.length).map (permInv q)) := by
  have hn63 : q.length ≤ 2 ^ 63 := nodup_lt_length_le q _ hnd h63
  obtain ⟨p, hp, hinv⟩ := invert_fold_inv q hmem hnd hn63 q.length (le_refl _)
  rw [invert_in_place, hp]
  congr 1
  refine List.ext_getElem? fun i => ?_
  by_cases hi : i < q.length
  · rw [hinv.2.1 i hi hi, List.getElem?_map, List.getElem?_range hi]
    rfl
  · have hp1 : p.length ≤ i := by rw [hinv.1]; omega
    have hp2 : ((List.range q.length).map (permInv q)).length ≤ i := by simp; omega
    rw [List.getElem?_eq_none hp1, List.getElem?_eq_none hp2]

/-- C6: after `invert_in_place(p)` on a permutation `q` of `[0, n)` with
entries below `2^63`, the resulting array `r` satisfies `r[q[i]] = i` for all
`i`, i.e. it is the inverse permutation, and the computation succeeds (no
auxiliary array is modelled: the walk works in place on the list). -/
theorem C6_invert_in_place_correct (q : List Nat)
    (hmem : ∀ x ∈ q, x < q.length) (hnd : q.Nodup)
    (h63 : ∀ x ∈ q, x < 2 ^ 63) :
    ∃ r, invert_in_place q = some r ∧ r.length = q.length ∧
      ∀ i, (hi : i < q.length) → r[q[i]]? = some i := by
  refine ⟨_, invert_spec q hmem hnd h63, by simp, ?_⟩
  intro i hi
  have hqi : q[i] < q.length := hmem _ (List.getElem_mem hi)
  rw [List.getElem?_map, List.getElem?_range hqi]
  have h1 : permInv q q[i] = i := by
    have h2 := permInv_permF q hnd i hi
    rw [permF_getElem q i hi] at h2
    exact h2
  show some (permInv q q[i]) = some i
  rw [h1]

theorem C6_invert_in_place_correct_witness :
    ((∀ x ∈ ([3, 0, 1, 2] : List Nat), x < ([3, 0, 1, 2] : List Nat).length) ∧
      ([3, 0, 1, 2] : List Nat).Nodup ∧ (∀ x ∈ ([3, 0, 1, 2] : List Nat), x < 2 ^ 63)) ∧
    ∃ r, invert_in_place [3, 0, 1, 2] = some r ∧ r.length = ([3, 0, 1, 2] : List Nat).length ∧
      ∀ i, (hi : i < ([3, 0, 1, 2] : List Nat).length) →
        r[([3, 0, 1, 2] : List Nat)[i]]? = some i :=
  ⟨⟨by decide, by decide, by decide⟩,
   C6_invert_in_place_correct [3, 0, 1, 2] (by decide) (by decide) (by decide)⟩

/-- C7: applying `invert_in_place` twice to a permutation of `[0, n)` (with
entries below `2^63`) restores the original array. -/
theorem C7_invert_involutive (q : List Nat)
    (hmem : ∀ x ∈ q, x < q.length) (hnd : q.Nodup)
    (h63 : ∀ x ∈ q, x < 2 ^ 63) :
    ∃ r, invert_in_place q = some r ∧ invert_in_place r = some q := by
  have hn63 : q.length ≤ 2 ^ 63 := nodup_lt_length_le q _ hnd h63
  set r := (List.range q.length).map (permInv q) with hr
  have h1 : invert_in_place q = some r := invert_spec q hmem hnd h63
  have hrlen : r.length = q.length := by rw [hr]; simp
  have hrget : ∀ j, j < q.length → r[j]? = some (permInv q j) := by
    intro j hj
    rw [hr, List.getElem?_map, List.getElem?_range hj]
    rfl
  have hrmem : ∀ x ∈ r, x < r.length := by
    intro x hx
    rw [hrlen]
    rw [hr] at hx
    obtain ⟨m, hm, rfl⟩ := List.mem_map.mp hx
    exact (permF_permInv q m
      (perm_mem_of_lt q hmem hnd m (List.mem_range.mp hm))).2
  have hrnd : r.Nodup := by
    rw [hr]
    refine List.Nodup.map_on ?_ (List.nodup_range _)
    intro a ha b hb hab
    have h1a := (permF_permInv q a (perm_mem_of_lt q hmem hnd a (List.mem_range.mp ha))).1
    have h1b := (permF_permInv q b (perm_mem_of_lt q hmem hnd b (List.mem_range.mp hb))).1
    rw [← h1a, ← h1b, hab]
  have hr63 : ∀ x ∈ r, x < 2 ^ 63 := by
    intro x hx
    have := hrmem x hx
    omega
  have h2 := invert_spec r hrmem hrnd hr63
  refine ⟨r, h1, ?_⟩
  rw [h2]
  congr 1
  refine List.ext_getElem? fun i => ?_
  by_cases hi : i < q.length
  · have hqi : q[i] < q.length := hmem _ (List.getElem_mem hi)
    have hri : r[q[i]]? = some i := by
      rw [hrget q[i] hqi]
      have h3 := permInv_permF q hnd i hi
      rw [permF_getElem q i hi] at h3
      rw [h3]
    have hinvr : permInv r i = q[i] := by
      have h4 : r[q[i]] = i := by
        have h5 := hri
        rw [List.getElem?_eq_getElem (by omega)] at h5
        exact Option.some_injective _ h5
      have h6 := List.indexOf_getElem hrnd q[i] (by omega)
      rw [h4] at h6
      exact h6
    rw [List.getElem?_map, List.getElem?_range (show i < r.length by omega),
        List.getElem?_eq_getElem hi]
    show some (permInv r i) = some q[i]
    rw [hinvr]
  · have hp1 : ((List.range r.length).map (permInv r)).length ≤ i := by
      simp
      omega
    have hp2 : q.length ≤ i := by omega
    rw [List.getElem?_eq_none hp1, List.getElem?_eq_none hp2]

theorem C7_invert_involutive_witness :
    ((∀ x ∈ ([3, 0, 1, 2] : List Nat), x < ([3, 0, 1, 2] : List Nat).length) ∧
      ([3, 0, 1, 2] : List Nat).Nodup ∧ (∀ x ∈ ([3, 0, 1, 2] : List Nat), x < 2 ^ 63)) ∧
    ∃ r, invert_in_place [3, 0, 1, 2] = some r ∧ invert_in_place r = some [3, 0, 1, 2] :=
  ⟨⟨by decide, by decide, by decide⟩,
   C7_invert_involutive [3, 0, 1, 2] (by decide) (by decide) (by decide)⟩

/-! ## The iteration driver: `layered_label_propagation` (`mod.rs`, lines 87–363)

Sequential (single-worker) embedding.  With one worker, rayon executes the
shuffle chunks and the `par_apply` ranges in submission order, so the shared
seed counter hands out consecutive seeds and the execution is a deterministic
function of the inputs.  External ingredients are abstracted as parameters:
the PRNG (`shuffleFn` for `SmallRng`-driven chunk shuffles, `seedFn`/`pickFn`
for the per-range rng used by `majorities.choose`), the arc-balanced range
decomposition computed by `par_apply` from `deg_cumul` (`ranges`), the
stopping predicate (`pred`, a pure function as specified), and the log-gap
cost (`costFn`; `gap_cost.rs` is not in the sources).  `f64` accumulations
(`obj_func`, `gain`) are modelled over `ℚ` (in particular `0/0 = 0` stands in
for the NaN gain of a zero-objective pass; the claims below never depend on
the value of `gain`).  The per-γ label files `labels_<i>.bin` are modelled as
the serialised label arrays themselves (`epserde` serialisation is a pure
function of the array).  Panics (`unwrap` on `None`, slice-index panics
inside `combine`) are `LLPOutcome.panic`; `Option.none` at the top level
models only fuel exhaustion of the unbounded `for update in 0..` loop. -/

structure SymGraph where
  numNodes : Nat
  succ : Nat → List Nat

def outdegree (g : SymGraph) (v : Nat) : Nat := (g.succ v).length

def numArcs (g : SymGraph) : Nat :=
  ((List.range g.numNodes).map (outdegree g)).sum

/-- The parameters handed to the stopping predicate (`mod.rs`, lines
269–275); `preds.rs` is not in the sources, but the field set is fixed by the
construction site. -/
structure PredParams where
  num_nodes : Nat
  num_arcs : Nat
  gain : ℚ
  modified : Nat
  update : Nat

/-- `map.entry(label).and_modify(|c| *c += 1).or_insert(1)` on an association
list (`mod.rs`, lines 195–199).  The `HashMap` iteration order (a
deterministic function of the Mix64 hasher, `mix64.rs` not in the sources) is
modelled as first-insertion order. -/
def bump : List (Nat × Nat) → Nat → List (Nat × Nat)
  | [], l => [(l, 1)]
  | (a, c) :: rest, l => if a = l then (a, c + 1) :: rest else (a, c) :: bump rest l

/-- `map.entry(curr_label).or_insert(0)` (`mod.rs`, line 201). -/
def orInsertZero (hist : List (Nat × Nat)) (l : Nat) : List (Nat × Nat) :=
  if hist.any fun e => e.1 = l then hist else hist ++ [(l, 0)]

/-- The successor-label histogram of a vertex (`mod.rs`, lines 192–201). -/
def buildHist (store : LabelStore) (succs : List Nat) (curr : Nat) :
    List (Nat × Nat) :=
  orInsertZero (succs.foldl (fun h s => bump h (store.label s)) []) curr

/-- State threaded through the vertex loop of one range. -/
structure PassState (R : Type) where
  store : LabelStore
  canChange : List Bool
  modified : Nat
  obj : ℚ
  rng : R

/-- Processing of one vertex (`mod.rs`, lines 173–250). -/
def processNode {R : Type} (g : SymGraph) (γ : ℚ)
    (pickFn : R → List Nat → Nat × R) (st : PassState R) (node : Nat) :
    PassState R :=
  if !(st.canChange.getD node false) then st
  else
    let st1 : PassState R := { st with canChange := st.canChange.set node false }
    if outdegree g node = 0 then st1
    else
      let curr := st1.store.label node
      let hist := buildHist st1.store (g.succ node) curr
      let res := scoreLoop γ curr (ScoreState.start st1.store) hist
      let sst := res.1
      let pick := pickFn st1.rng sst.majorities
      -- `max` is never `NEG_INFINITY` here: the histogram contains at least
      -- the current label, so the default 0 of the `none` case is inert.
      let maxv := match sst.max with | some m => m | none => 0
      if pick.1 ≠ curr then
        { store := sst.store.volume_set node pick.1,
          canChange := (g.succ node).foldl (fun cc s => cc.set s true) st1.canChange,
          modified := st1.modified + 1,
          obj := st1.obj + (maxv - sst.old),
          rng := pick.2 }
      else
        { st1 with store := sst.store, obj := st1.obj + (maxv - sst.old),
                   rng := pick.2 }

/-- Accumulator of one pass across ranges (the per-range rng is reset from
the range start, `mod.rs`, line 171). -/
structure RangeAcc where
  store : LabelStore
  canChange : List Bool
  modified : Nat
  obj : ℚ

/-- One pass (`par_apply` body, executed range after range by the single
worker); `visit` is the shuffled permutation, each range processes its slice
of it. -/
def runPass {R : Type} (g : SymGraph) (γ : ℚ) (seedFn : Nat → R)
    (pickFn : R → List Nat → Nat × R) (ranges : List (Nat × Nat))
    (visit : List Nat) (store : LabelStore) (canChange : List Bool) : RangeAcc :=
  ranges.foldl
    (fun acc r =>
      let nodes := (visit.drop r.1).take (r.2 - r.1)
      let stF := nodes.foldl (processNode g γ pickFn)
        ⟨acc.store, acc.canChange, acc.modified, acc.obj, seedFn r.1⟩
      ⟨stF.store, stF.canChange, stF.modified, stF.obj⟩)
    ⟨store, canChange, 0, 0⟩

/-- Contiguous chunks of at most `cs` elements (`par_chunks_mut`); the fuel
is the list length, and the `fuel = 0` fallback is unreachable for `cs ≥ 1`
(Rust panics on `chunk_size = 0`). -/
def chunksOfAux (cs : Nat) : Nat → List Nat → List (List Nat)
  | _, [] => []
  | 0, l => [l]
  | fuel + 1, l => l.take cs :: chunksOfAux cs fuel (l.drop cs)

/-- The chunked shuffle of the identity permutation (`mod.rs`, lines
155–163): with a single worker the chunks draw consecutive seeds from the
shared counter, in order.  Returns the shuffled permutation and the new
counter value. -/
def chunkedShuffle (shuffleFn : Nat → List Nat → List Nat) (seed0 cs n : Nat) :
    List Nat × Nat :=
  let chunks := chunksOfAux cs n (List.range n)
  (((chunks.zip (List.range chunks.length)).map
      fun pc => shuffleFn (seed0 + pc.2) pc.1).flatten,
   seed0 + chunks.length)

/-- Result of one γ's inner iteration. -/
structure GammaOut where
  labels : List Nat
  passes : Nat
  lastModified : Nat
  seedCtr : Nat

/-- The `for update in 0..` loop of one γ (`mod.rs`, lines 151–279), with
fuel for the unbounded loop; `none` models divergence, never reached by the
claims below. -/
def gammaLoop {R : Type} (g : SymGraph) (γ : ℚ)
    (ranges : List (Nat × Nat)) (shuffleFn : Nat → List Nat → List Nat)
    (seedFn : Nat → R) (pickFn : R → List Nat → Nat × R)
    (pred : PredParams → Bool) (cs : Nat) :
    Nat → Nat → Nat → LabelStore → List Bool → ℚ → Option GammaOut
  | 0, _, _, _, _, _ => none
  | fuel + 1, update, seedCtr, store, canChange, obj =>
    let sh := chunkedShuffle shuffleFn seedCtr cs g.numNodes
    let pass := runPass g γ seedFn pickFn ranges sh.1 store canChange
    let obj2 := obj + pass.obj
    let gain := pass.obj / obj2
    if pred ⟨g.numNodes, numArcs g, gain, pass.modified, update⟩
        || pass.modified == 0 then
      some ⟨pass.store.labels, update + 1, pass.modified, sh.2⟩
    else
      gammaLoop g γ ranges shuffleFn seedFn pickFn pred cs
        fuel (update + 1) sh.2 pass.store pass.canChange obj2

/-- One γ's full iteration from the per-γ reset (`mod.rs`, lines 145–149). -/
def runGamma {R : Type} (g : SymGraph) (γ : ℚ)
    (ranges : List (Nat × Nat)) (shuffleFn : Nat → List Nat → List Nat)
    (seedFn : Nat → R) (pickFn : R → List Nat → Nat × R)
    (pred : PredParams → Bool) (cs : Nat) (fuel seedCtr : Nat) :
    Option GammaOut :=
  gammaLoop g γ ranges shuffleFn seedFn pickFn pred cs
    fuel 0 seedCtr (LabelStore.init g.numNodes)
    (List.replicate g.numNodes true) 0

/-- The outer `for (gamma_index, gamma)` loop (`mod.rs`, lines 137–317):
runs every γ in order, threading the seed counter, collecting the per-γ label
file contents and log-gap costs. -/
def gammaFold {R : Type} (g : SymGraph)
    (ranges : List (Nat × Nat)) (shuffleFn : Nat → List Nat → List Nat)
    (seedFn : Nat → R) (pickFn : R → List Nat → Nat × R)
    (pred : PredParams → Bool) (cs : Nat) (costFn : List Nat → ℚ)
    (fuel : Nat) : List ℚ → Nat → Option (Nat × List (List Nat) × List ℚ)
  | [], seedCtr => some (seedCtr, [], [])
  | γ :: rest, seedCtr => do
    let out ← runGamma g γ ranges shuffleFn seedFn pickFn pred cs fuel seedCtr
    let r ← gammaFold g ranges shuffleFn seedFn pickFn pred cs costFn fuel
      rest out.seedCtr
    pure (r.1, out.labels :: r.2.1, costFn out.labels :: r.2.2)

/-- `gamma_indices.sort_by(|a, b| costs[*b].total_cmp(&costs[*a]))`
(`mod.rs`, lines 322–324): indices sorted by descending cost, stably. -/
def sortedGammaIndices (costs : List ℚ) : List Nat :=
  (List.range costs.length).mergeSort fun a b =>
    !decide (compare (costs.getD b 0) (costs.getD a 0) = Ordering.gt)

/-- `*gamma_indices.last().unwrap()` (`mod.rs`, line 327): `none` when the
list is empty, in which case the `unwrap` panics. -/
def bestGammaIndex (costs : List ℚ) : Option Nat :=
  (sortedGammaIndices costs).getLast?

/-- The recombination loop (`mod.rs`, lines 346–360): for each γ index in
descending-cost order, `combine` with that γ's labels, then `combine` with
the best γ's labels again. -/
def combinePhase (files : List (List Nat)) (best : Nat) (order : List Nat)
    (n : Nat) : Option (List Nat) := do
  let bestLabels ← files[best]?
  order.foldlM
    (fun result gi => do
      let labels ← files[gi]?
      let r1 ← combine result labels n
      let bl ← files[best]?
      let r2 ← combine r1.2 bl n
      pure r2.2)
    bestLabels

/-- Observable outcome of a run: the final labelling together with the per-γ
label files, or a panic. -/
inductive LLPOutcome where
  | ok (result : List Nat) (files : List (List Nat))
  | panic
deriving DecidableEq

/-- Single-worker `layered_label_propagation`.  No input validation is
performed anywhere (mirroring the source): an empty γ schedule reaches the
final `unwrap` (panic), and `n = 0` reaches the unconditional `temp_perm[0]`
read inside `combine` (panic). -/
def llpSingleThread {R : Type} (g : SymGraph) (gammas : List ℚ)
    (ranges : List (Nat × Nat)) (shuffleFn : Nat → List Nat → List Nat)
    (seedFn : Nat → R) (pickFn : R → List Nat → Nat × R)
    (pred : PredParams → Bool) (cs : Nat) (costFn : List Nat → ℚ)
    (fuel seed : Nat) : Option LLPOutcome := do
  let r ← gammaFold g ranges shuffleFn seedFn pickFn pred cs costFn fuel
    gammas seed
  match bestGammaIndex r.2.2 with
  | none => pure LLPOutcome.panic
  | some best =>
    match combinePhase r.2.1 best (sortedGammaIndices r.2.2) g.numNodes with
    | none => pure LLPOutcome.panic
    | some result => pure (LLPOutcome.ok result r.2.1)

theorem getD_true_lt_length (l : List Bool) (i : Nat)
    (h : l.getD i false = true) : i < l.length := by
  by_contra hcon
  push_neg at hcon
  rw [List.getD_eq_default _ _ hcon] at h
  exact Bool.false_ne_true h

/-- On a graph whose vertices are all isolated, processing a vertex only
clears its can-change flag: store, modified counter and objective are
untouched. -/
theorem processNode_isolated {R : Type} (g : SymGraph) (γ : ℚ)
    (pickFn : R → List Nat → Nat × R)
    (hiso : ∀ v, v < g.numNodes → g.succ v = [])
    (st : PassState R) (hcc : st.canChange.length ≤ g.numNodes) (node : Nat) :
    (processNode g γ pickFn st node).store = st.store ∧
    (processNode g γ pickFn st node).modified = st.modified ∧
    (processNode g γ pickFn st node).obj = st.obj ∧
    (processNode g γ pickFn st node).canChange.length = st.canChange.length := by
  unfold processNode
  by_cases h : st.canChange.getD node false = true
  · have hlt : node < g.numNodes :=
      lt_of_lt_of_le (getD_true_lt_length _ _ h) hcc
    have hdeg : outdegree g node = 0 := by
      rw [outdegree, hiso node hlt]
      rfl
    rw [h]
    show (if !true then st
      else
        let st1 : PassState R := { st with canChange := st.canChange.set node false }
        if outdegree g node = 0 then st1 else _).store = st.store ∧ _
    rw [if_neg (by simp), if_pos hdeg]
    exact ⟨rfl, rfl, rfl, by simp⟩
  · have hfalse : st.canChange.getD node false = false := by
      cases hv : st.canChange.getD node false
      · rfl
      · exact absurd hv h
    rw [hfalse]
    exact ⟨rfl, rfl, rfl, rfl⟩

theorem foldNodes_isolated {R : Type} (g : SymGraph) (γ : ℚ)
    (pickFn : R → List Nat → Nat × R)
    (hiso : ∀ v, v < g.numNodes → g.succ v = [])
    (nodes : List Nat) :
    ∀ st : PassState R, st.canChange.length ≤ g.numNodes →
      (nodes.foldl (processNode g γ pickFn) st).store = st.store ∧
      (nodes.foldl (processNode g γ pickFn) st).modified = st.modified ∧
      (nodes.foldl (processNode g γ pickFn) st).obj = st.obj ∧
      (nodes.foldl (processNode g γ pickFn) st).canChange.length =
        st.canChange.length := by
  induction nodes with
  | nil => exact fun st _ => ⟨rfl, rfl, rfl, rfl⟩
  | cons node rest ih =>
    intro st hcc
    obtain ⟨h1, h2, h3, h4⟩ := processNode_isolated g γ pickFn hiso st hcc node
    obtain ⟨g1, g2, g3, g4⟩ := ih (processNode g γ pickFn st node) (by omega)
    exact ⟨g1.trans h1, g2.trans h2, g3.trans h3, g4.trans h4⟩

theorem runPass_isolated {R : Type} (g : SymGraph) (γ : ℚ) (seedFn : Nat → R)
    (pickFn : R → List Nat → Nat × R)
    (hiso : ∀ v, v < g.numNodes → g.succ v = [])
    (ranges : List (Nat × Nat)) (visit : List Nat) (store : LabelStore)
    (canChange : List Bool) (hcc : canChange.length ≤ g.numNodes) :
    (runPass g γ seedFn pickFn ranges visit store canChange).store = store ∧
    (runPass g γ seedFn pickFn ranges visit store canChange).modified = 0 ∧
    (runPass g γ seedFn pickFn ranges visit store canChange).obj = 0 := by
  unfold runPass
  suffices h : ∀ acc : RangeAcc, acc.canChange.length ≤ g.numNodes →
      (ranges.foldl (fun acc r =>
        let nodes := (visit.drop r.1).take (r.2 - r.1)
        let stF := nodes.foldl (processNode g γ pickFn)
          ⟨acc.store, acc.canChange, acc.modified, acc.obj, seedFn r.1⟩
        ⟨stF.store, stF.canChange, stF.modified, stF.obj⟩) acc).store = acc.store ∧
      (ranges.foldl _ acc).modified = acc.modified ∧
      (ranges.foldl _ acc).obj = acc.obj by
    exact (h ⟨store, canChange, 0, 0⟩ hcc)
  induction ranges with
  | nil => exact fun acc _ => ⟨rfl, rfl, rfl⟩
  | cons r rest ih =>
    intro acc hacc
    set nodes := (visit.drop r.1).take (r.2 - r.1) with hnodes
    set stF := nodes.foldl (processNode g γ pickFn)
      ⟨acc.store, acc.canChange, acc.modified, acc.obj, seedFn r.1⟩ with hstF
    obtain ⟨h1, h2, h3, h4⟩ := foldNodes_isolated g γ pickFn hiso nodes
      ⟨acc.store, acc.canChange, acc.modified, acc.obj, seedFn r.1⟩ hacc
    obtain ⟨g1, g2, g3⟩ := ih ⟨stF.store, stF.canChange, stF.modified, stF.obj⟩
      (by show stF.canChange.length ≤ g.numNodes; rw [h4]; exact hacc)
    rw [List.foldl_cons]
    exact ⟨g1.trans h1, g2.trans h2, g3.trans h3⟩

/-- On a graph with zero arcs, a γ's inner iteration returns after the first
pass, with `modified = 0` and the identity labelling (the label store was
never written). -/
theorem runGamma_isolated {R : Type} (g : SymGraph) (γ : ℚ)
    (ranges : List (Nat × Nat)) (shuffleFn : Nat → List Nat → List Nat)
    (seedFn : Nat → R) (pickFn : R → List Nat → Nat × R)
    (pred : PredParams → Bool) (cs : Nat) (fuel seedCtr : Nat)
    (hiso : ∀ v, v < g.numNodes → g.succ v = []) (hfuel : 1 ≤ fuel) :
    ∃ out, runGamma g γ ranges shuffleFn seedFn pickFn pred cs fuel seedCtr =
        some out ∧
      out.passes = 1 ∧ out.lastModified = 0 ∧
      out.labels = List.range g.numNodes := by
  obtain ⟨fuel1, rfl⟩ : ∃ k, fuel = k + 1 := ⟨fuel - 1, by omega⟩
  unfold runGamma gammaLoop
  set sh := chunkedShuffle shuffleFn seedCtr cs g.numNodes with hsh
  obtain ⟨h1, h2, h3⟩ := runPass_isolated g γ seedFn pickFn hiso ranges sh.1
    (LabelStore.init g.numNodes) (List.replicate g.numNodes true) (by simp)
  set pass := runPass g γ seedFn pickFn ranges sh.1 (LabelStore.init g.numNodes)
    (List.replicate g.numNodes true) with hpass
  have hcond : (pred ⟨g.numNodes, numArcs g,
      pass.obj / (0 + pass.obj), pass.modified, 0⟩ || pass.modified == 0) = true := by
    rw [h2]
    simp
  rw [if_pos hcond]
  refine ⟨_, rfl, rfl, h2, ?_⟩
  show pass.store.labels = List.range g.numNodes
  rw [h1]
  rfl

/-- C8: on a graph with `n ≥ 1` vertices and zero arcs, each γ's inner
iteration terminates at the end of pass 1 with `modified = 0` and produces
the identity labelling, for every γ, stopping predicate, range decomposition
and shuffle. -/
theorem C8_isolated_graph_identity {R : Type} (g : SymGraph) (γ : ℚ)
    (ranges : List (Nat × Nat)) (shuffleFn : Nat → List Nat → List Nat)
    (seedFn : Nat → R) (pickFn : R → List Nat → Nat × R)
    (pred : PredParams → Bool) (cs fuel seedCtr : Nat)
    (hn : 1 ≤ g.numNodes) (hiso : ∀ v, v < g.numNodes → g.succ v = [])
    (hfuel : 1 ≤ fuel) :
    ∃ out, runGamma g γ ranges shuffleFn seedFn pickFn pred cs fuel seedCtr =
        some out ∧
      out.passes = 1 ∧ out.lastModified = 0 ∧
      out.labels = List.range g.numNodes :=
  runGamma_isolated g γ ranges shuffleFn seedFn pickFn pred cs fuel seedCtr
    hiso hfuel

theorem C8_isolated_graph_identity_witness :
    ((1 : Nat) ≤ (SymGraph.mk 1 fun _ => []).numNodes ∧
      (∀ v, v < (SymGraph.mk 1 fun _ => []).numNodes →
        (SymGraph.mk 1 fun _ => []).succ v = []) ∧ (1 : Nat) ≤ 1) ∧
    ∃ out, runGamma (R := Unit) (SymGraph.mk 1 fun _ => []) 0 [(0, 1)]
        (fun _ l => l) (fun _ => ()) (fun _ l => (l.headD 0, ()))
        (fun _ => false) 1 1 0 = some out ∧
      out.passes = 1 ∧ out.lastModified = 0 ∧
      out.labels = List.range (SymGraph.mk 1 fun _ => []).numNodes :=
  ⟨⟨le_refl 1, fun _ _ => rfl, le_refl 1⟩,
   C8_isolated_graph_identity (SymGraph.mk 1 fun _ => []) 0 [(0, 1)]
     (fun _ l => l) (fun _ => ()) (fun _ l => (l.headD 0, ()))
     (fun _ => false) 1 1 0 (le_refl 1) (fun _ _ => rfl) (le_refl 1)⟩

theorem bestGammaIndex_nil : bestGammaIndex [] = none := by
  unfold bestGammaIndex sortedGammaIndices
  rw [show List.range ([] : List ℚ).length = [] from rfl, List.mergeSort_nil]
  rfl

theorem gammaFold_isolated {R : Type} (g : SymGraph)
    (ranges : List (Nat × Nat)) (shuffleFn : Nat → List Nat → List Nat)
    (seedFn : Nat → R) (pickFn : R → List Nat → Nat × R)
    (pred : PredParams → Bool) (cs : Nat) (costFn : List Nat → ℚ) (fuel : Nat)
    (hiso : ∀ v, v < g.numNodes → g.succ v = []) (hfuel : 1 ≤ fuel) :
    ∀ gammas : List ℚ, ∀ seed, ∃ ctr files costs,
      gammaFold g ranges shuffleFn seedFn pickFn pred cs costFn fuel
        gammas seed = some (ctr, files, costs) ∧
      files.length = gammas.length ∧ costs.length = gammas.length ∧
      ∀ f ∈ files, f = List.range g.numNodes := by
  intro gammas
  induction gammas with
  | nil => exact fun seed => ⟨seed, [], [], rfl, rfl, rfl, by simp⟩
  | cons γ rest ih =>
    intro seed
    obtain ⟨out, hout, _, _, hlab⟩ := runGamma_isolated g γ ranges shuffleFn
      seedFn pickFn pred cs fuel seed hiso hfuel
    obtain ⟨ctr, files, costs, hfold, hfl, hcl, hmem⟩ := ih out.seedCtr
    refine ⟨ctr, out.labels :: files, costFn out.labels :: costs, ?_,
      by simp [hfl], by simp [hcl], ?_⟩
    · show (do
        let o ← runGamma g γ ranges shuffleFn seedFn pickFn pred cs fuel seed
        let r ← gammaFold g ranges shuffleFn seedFn pickFn pred cs costFn fuel
          rest o.seedCtr
        pure (r.1, o.labels :: r.2.1, costFn o.labels :: r.2.2)) = _
      rw [hout]
      show (do
        let r ← gammaFold g ranges shuffleFn seedFn pickFn pred cs costFn fuel
          rest out.seedCtr
        pure (r.1, out.labels :: r.2.1, costFn out.labels :: r.2.2)) = _
      rw [hfold]
      rfl
    · intro f hf
      rcases List.mem_cons.mp hf with h | h
      · rw [h, hlab]
      · exact hmem f h

theorem bestGammaIndex_some (costs : List ℚ) (hne : costs ≠ []) :
    ∃ b, bestGammaIndex costs = some b ∧ b < costs.length ∧
      ∃ o1 rest, sortedGammaIndices costs = o1 :: rest ∧ o1 < costs.length := by
  have hperm := List.mergeSort_perm (List.range costs.length) fun a b =>
    !decide (compare (costs.getD b 0) (costs.getD a 0) = Ordering.gt)
  have hlen : (sortedGammaIndices costs).length = costs.length := by
    rw [sortedGammaIndices]
    rw [hperm.length_eq]
    simp
  have hmemlt : ∀ x ∈ sortedGammaIndices costs, x < costs.length := by
    intro x hx
    have hx2 : x ∈ List.range costs.length := hperm.subset hx
    exact List.mem_range.mp hx2
  have hnempty : sortedGammaIndices costs ≠ [] := by
    intro h
    rw [h] at hlen
    simp at hlen
    exact hne (List.length_eq_zero.mp hlen.symm)
  obtain ⟨o1, rest, hcons⟩ : ∃ a l, sortedGammaIndices costs = a :: l := by
    cases h : sortedGammaIndices costs with
    | nil => exact absurd h hnempty
    | cons a l => exact ⟨a, l, rfl⟩
  have hlast : ∃ b, (sortedGammaIndices costs).getLast? = some b := by
    rw [hcons]
    exact ⟨(o1 :: rest).getLast (by simp),
      List.getLast?_eq_getLast _ (by simp)⟩
  obtain ⟨b, hb⟩ := hlast
  have hbmem : b ∈ sortedGammaIndices costs := List.mem_of_mem_getLast? hb
  exact ⟨b, hb, hmemlt b hbmem, o1, rest, hcons,
    hmemlt o1 (hcons ▸ List.mem_cons_self o1 rest)⟩

theorem combinePhase_at_zero (files : List (List Nat)) (best o1 : Nat)
    (rest : List Nat) (hbest : best < files.length) (ho1 : o1 < files.length) :
    combinePhase files best (o1 :: rest) 0 = none := by
  unfold combinePhase
  rw [List.getElem?_eq_getElem hbest]
  show (do
    let x ← (do
      let labels ← files[o1]?
      let r1 ← combine files[best] labels 0
      let bl ← some files[best]
      let r2 ← combine r1.2 bl 0
      pure r2.2)
    List.foldlM
      (fun result gi => do
        let labels ← files[gi]?
        let r1 ← combine result labels 0
        let bl ← some files[best]
        let r2 ← combine r1.2 bl 0
        pure r2.2) x rest) = none
  rw [List.getElem?_eq_getElem ho1]
  show (do
    let x ← (do
      let r1 ← combine files[best] files[o1] 0
      let bl ← some files[best]
      let r2 ← combine r1.2 bl 0
      pure r2.2)
    List.foldlM
      (fun result gi => do
        let labels ← files[gi]?
        let r1 ← combine result labels 0
        let bl ← some files[best]
        let r2 ← combine r1.2 bl 0
        pure r2.2) x rest) = none
  rw [combine_at_zero]
  rfl

/-- C3 (amended): no input validation is performed.  With an empty γ schedule
the run reaches `gamma_indices.last().unwrap()` after the (empty) γ loop and
panics, and with `n = 0` it reaches the unconditional `temp_perm[0]` read
inside `combine` and panics; neither case reports an error before the
iterations. -/
theorem C3_no_validation {R : Type} (g : SymGraph) (gammas : List ℚ)
    (ranges : List (Nat × Nat)) (shuffleFn : Nat → List Nat → List Nat)
    (seedFn : Nat → R) (pickFn : R → List Nat → Nat × R)
    (pred : PredParams → Bool) (cs : Nat) (costFn : List Nat → ℚ)
    (fuel seed : Nat) :
    (gammas = [] →
      llpSingleThread g gammas ranges shuffleFn seedFn pickFn pred cs costFn
        fuel seed = some LLPOutcome.panic) ∧
    (g.numNodes = 0 → gammas ≠ [] → 1 ≤ fuel →
      llpSingleThread g gammas ranges shuffleFn seedFn pickFn pred cs costFn
        fuel seed = some LLPOutcome.panic) := by
  constructor
  · intro hg
    subst hg
    unfold llpSingleThread
    show (do
      let r ← gammaFold g ranges shuffleFn seedFn pickFn pred cs costFn fuel
        [] seed
      match bestGammaIndex r.2.2 with
      | none => pure LLPOutcome.panic
      | some best =>
        match combinePhase r.2.1 best (sortedGammaIndices r.2.2) g.numNodes with
        | none => pure LLPOutcome.panic
        | some result => pure (LLPOutcome.ok result r.2.1)) = _
    show (match bestGammaIndex ([] : List ℚ) with
      | none => pure LLPOutcome.panic
      | some best =>
        match combinePhase [] best (sortedGammaIndices []) g.numNodes with
        | none => pure LLPOutcome.panic
        | some result => pure (LLPOutcome.ok result [])) = _
    rw [bestGammaIndex_nil]
    rfl
  · intro hz hne hfuel
    have hiso : ∀ v, v < g.numNodes → g.succ v = [] := by
      intro v hv
      omega
    obtain ⟨ctr, files, costs, hfold, hfl, hcl, hmem⟩ :=
      gammaFold_isolated g ranges shuffleFn seedFn pickFn pred cs costFn fuel
        hiso hfuel gammas seed
    have hcne : costs ≠ [] := by
      intro h
      rw [h] at hcl
      exact hne (List.length_eq_zero.mp hcl.symm)
    obtain ⟨b, hb, hblt, o1, rest, hcons, ho1⟩ := bestGammaIndex_some costs hcne
    unfold llpSingleThread
    rw [hfold]
    show (match bestGammaIndex costs with
      | none => pure LLPOutcome.panic
      | some best =>
        match combinePhase files best (sortedGammaIndices costs) g.numNodes with
        | none => pure LLPOutcome.panic
        | some result => pure (LLPOutcome.ok result files)) = _
    rw [hb]
    show (match combinePhase files b (sortedGammaIndices costs) g.numNodes with
      | none => pure LLPOutcome.panic
      | some result => pure (LLPOutcome.ok result files)) = _
    rw [hcons, hz, combinePhase_at_zero files b o1 rest (by omega) (by omega)]
    rfl

theorem C3_no_validation_counterexample :
    llpSingleThread (R := Unit) (SymGraph.mk 1 fun _ => []) [] [(0, 1)]
      (fun _ l => l) (fun _ => ()) (fun _ l => (l.headD 0, ()))
      (fun _ => false) 1 (fun _ => 0) 1 0 = some LLPOutcome.panic := by
  unfold llpSingleThread
  show (match bestGammaIndex ([] : List ℚ) with
    | none => pure LLPOutcome.panic
    | some best =>
      match combinePhase [] best (sortedGammaIndices [])
          (SymGraph.mk 1 fun _ => []).numNodes with
      | none => pure LLPOutcome.panic
      | some result => pure (LLPOutcome.ok result [])) = _
  rw [bestGammaIndex_nil]
  rfl

theorem C3_no_validation_witness :
    ((([] : List ℚ) = []) ∧
      llpSingleThread (R := Unit) (SymGraph.mk 2 fun _ => []) [] [(0, 2)]
        (fun _ l => l) (fun _ => ()) (fun _ l => (l.headD 0, ()))
        (fun _ => false) 1 (fun _ => 0) 1 0 = some LLPOutcome.panic) ∧
    (((SymGraph.mk 0 fun _ => []).numNodes = 0 ∧ ([0] : List ℚ) ≠ [] ∧
        (1 : Nat) ≤ 1) ∧
      llpSingleThread (R := Unit) (SymGraph.mk 0 fun _ => []) [0] []
        (fun _ l => l) (fun _ => ()) (fun _ l => (l.headD 0, ()))
        (fun _ => false) 1 (fun _ => 0) 1 0 = some LLPOutcome.panic) :=
  ⟨⟨rfl, (C3_no_validation (SymGraph.mk 2 fun _ => []) [] [(0, 2)]
      (fun _ l => l) (fun _ => ()) (fun _ l => (l.headD 0, ()))
      (fun _ => false) 1 (fun _ => 0) 1 0).1 rfl⟩,
   ⟨⟨rfl, List.cons_ne_nil 0 [], le_refl 1⟩,
    (C3_no_validation (SymGraph.mk 0 fun _ => []) [0] []
      (fun _ l => l) (fun _ => ()) (fun _ l => (l.headD 0, ()))
      (fun _ => false) 1 (fun _ => 0) 1 0).2 rfl (List.cons_ne_nil 0 [])
      (le_refl 1)⟩⟩

/-- C9: with a single worker and fixed seed, two runs on the same graph and γ
schedule produce the same outcome; in particular the persisted per-γ label
files (modelled as the serialised label arrays) are identical index by
index. -/
theorem C9_single_thread_deterministic {R : Type} (g : SymGraph)
    (gammas : List ℚ) (ranges : List (Nat × Nat))
    (shuffleFn : Nat → List Nat → List Nat) (seedFn : Nat → R)
    (pickFn : R → List Nat → Nat × R) (pred : PredParams → Bool) (cs : Nat)
    (costFn : List Nat → ℚ) (fuel seed : Nat) (o1 o2 : Option LLPOutcome)
    (h1 : o1 = llpSingleThread g gammas ranges shuffleFn seedFn pickFn pred cs
      costFn fuel seed)
    (h2 : o2 = llpSingleThread g gammas ranges shuffleFn seedFn pickFn pred cs
      costFn fuel seed) :
    o1 = o2 ∧
    ∀ r1 f1 r2 f2, o1 = some (LLPOutcome.ok r1 f1) →
      o2 = some (LLPOutcome.ok r2 f2) → r1 = r2 ∧ ∀ i : Nat, f1[i]? = f2[i]? := by
  subst h1
  subst h2
  refine ⟨rfl, ?_⟩
  intro r1 f1 r2 f2 e1 e2
  rw [e1] at e2
  simp only [Option.some.injEq, LLPOutcome.ok.injEq] at e2
  exact ⟨e2.1, fun i => by rw [e2.2]⟩

theorem C9_single_thread_deterministic_witness :
    ((llpSingleThread (R := Unit) (SymGraph.mk 1 fun _ => []) [0] [(0, 1)]
        (fun _ l => l) (fun _ => ()) (fun _ l => (l.headD 0, ()))
        (fun _ => false) 1 (fun _ => 0) 2 0 =
      llpSingleThread (R := Unit) (SymGraph.mk 1 fun _ => []) [0] [(0, 1)]
        (fun _ l => l) (fun _ => ()) (fun _ l => (l.headD 0, ()))
        (fun _ => false) 1 (fun _ => 0) 2 0) ∧
      (llpSingleThread (R := Unit) (SymGraph.mk 1 fun _ => []) [0] [(0, 1)]
        (fun _ l => l) (fun _ => ()) (fun _ l => (l.headD 0, ()))
        (fun _ => false) 1 (fun _ => 0) 2 0 =
      llpSingleThread (R := Unit) (SymGraph.mk 1 fun _ => []) [0] [(0, 1)]
        (fun _ l => l) (fun _ => ()) (fun _ l => (l.headD 0, ()))
        (fun _ => false) 1 (fun _ => 0) 2 0)) ∧
    (llpSingleThread (R := Unit) (SymGraph.mk 1 fun _ => []) [0] [(0, 1)]
        (fun _ l => l) (fun _ => ()) (fun _ l => (l.headD 0, ()))
        (fun _ => false) 1 (fun _ => 0) 2 0 =
      llpSingleThread (R := Unit) (SymGraph.mk 1 fun _ => []) [0] [(0, 1)]
        (fun _ l => l) (fun _ => ()) (fun _ l => (l.headD 0, ()))
        (fun _ => false) 1 (fun _ => 0) 2 0 ∧
      ∀ r1 f1 r2 f2,
        llpSingleThread (R := Unit) (SymGraph.mk 1 fun _ => []) [0] [(0, 1)]
          (fun _ l => l) (fun _ => ()) (fun _ l => (l.headD 0, ()))
          (fun _ => false) 1 (fun _ => 0) 2 0 = some (LLPOutcome.ok r1 f1) →
        llpSingleThread (R := Unit) (SymGraph.mk 1 fun _ => []) [0] [(0, 1)]
          (fun _ l => l) (fun _ => ()) (fun _ l => (l.headD 0, ()))
          (fun _ => false) 1 (fun _ => 0) 2 0 = some (LLPOutcome.ok r2 f2) →
        r1 = r2 ∧ ∀ i : Nat, f1[i]? = f2[i]?) :=
  ⟨⟨rfl, rfl⟩,
   C9_single_thread_deterministic (SymGraph.mk 1 fun _ => []) [0] [(0, 1)]
     (fun _ l => l) (fun _ => ()) (fun _ l => (l.headD 0, ()))
     (fun _ => false) 1 (fun _ => 0) 2 0
     (llpSingleThread (SymGraph.mk 1 fun _ => []) [0] [(0, 1)]
       (fun _ l => l) (fun _ => ()) (fun _ l => (l.headD 0, ()))
       (fun _ => false) 1 (fun _ => 0) 2 0)
     (llpSingleThread (SymGraph.mk 1 fun _ => []) [0] [(0, 1)]
       (fun _ l => l) (fun _ => ()) (fun _ l => (l.headD 0, ()))
       (fun _ => false) 1 (fun _ => 0) 2 0) rfl rfl⟩

end Llp
